import Mathlib

/-!
Verification of the egui software render backend core
(`egui_software_backend`), via a shallow embedding of its Rust sources.

Machine integers (`u32`) are modelled as `Nat`, with an explicit
`% 2 ^ 32` at the single place the source can overflow
(`DirtyRect::tiled`); `f32` quantities that the verified claims depend on
are modelled as `ℚ` (the source's orientation test is sign-exact, see the
comments at `orient2df`).  Fallible code (assertions, panicking indexing)
is modelled with `Except`/`Option`.
-/

set_option maxRecDepth 4096

namespace ESB

/-- Source `src/lib.rs`: `const TILE_SIZE: u32 = 64;`. -/
def TILE_SIZE : Nat := 64

/-- `2 ^ 32`, the modulus of `u32` arithmetic. -/
def U32 : Nat := 4294967296

/-- Source `src/dirty_rect.rs`: `struct DirtyRect` (all fields `u32`). -/
structure DirtyRect where
  min_x : Nat
  min_y : Nat
  max_x : Nat
  max_y : Nat
deriving DecidableEq, Repr

/-- Source `DirtyRect::new_empty`. -/
def DirtyRect.new_empty : DirtyRect := ⟨0, 0, 0, 0⟩

/-- `u32::div_ceil(x, 64)` (the Rust implementation never overflows). -/
def divCeil64 (x : Nat) : Nat := x / TILE_SIZE + (if x % TILE_SIZE = 0 then 0 else 1)

/-- Source `DirtyRect::tiled::<TILE_SIZE>`: min is rounded down and max is
rounded up to a multiple of 64.  The final multiplication on the max side
is the only operation that can wrap a `u32`, hence the `% U32`. -/
def DirtyRect.tiled (r : DirtyRect) : DirtyRect where
  min_x := r.min_x / TILE_SIZE * TILE_SIZE
  min_y := r.min_y / TILE_SIZE * TILE_SIZE
  max_x := divCeil64 r.max_x * TILE_SIZE % U32
  max_y := divCeil64 r.max_y * TILE_SIZE % U32

/-- Source `DirtyRect::is_empty`. -/
def DirtyRect.is_empty (r : DirtyRect) : Bool :=
  r.min_x == r.max_x || r.min_y == r.max_y

/-- Source `DirtyRect::intersects`.  NOTE: the source tests only the x
axis; this embedding mirrors that faithfully. -/
def DirtyRect.intersects (r o : DirtyRect) : Bool :=
  decide (r.min_x < o.max_x) && decide (o.min_x < r.max_x)

/-- Source `DirtyRect::intersection`. -/
def DirtyRect.intersection (r o : DirtyRect) : DirtyRect where
  min_x := max r.min_x o.min_x
  min_y := max r.min_y o.min_y
  max_x := min r.max_x o.max_x
  max_y := min r.max_y o.max_y

/-- Source `DirtyRect::union`. -/
def DirtyRect.union (r o : DirtyRect) : DirtyRect where
  min_x := min r.min_x o.min_x
  min_y := min r.min_y o.min_y
  max_x := max r.max_x o.max_x
  max_y := max r.max_y o.max_y

/-- The set of integer pixels covered by a rect (half-open on both axes). -/
def DirtyRect.pmem (r : DirtyRect) (x y : Nat) : Prop :=
  r.min_x ≤ x ∧ x < r.max_x ∧ r.min_y ≤ y ∧ y < r.max_y

instance (r : DirtyRect) (x y : Nat) : Decidable (r.pmem x y) := by
  unfold DirtyRect.pmem; infer_instance

@[simp] theorem minx_mk (a b c d : Nat) : (DirtyRect.mk a b c d).min_x = a := rfl

@[simp] theorem miny_mk (a b c d : Nat) : (DirtyRect.mk a b c d).min_y = b := rfl

@[simp] theorem maxx_mk (a b c d : Nat) : (DirtyRect.mk a b c d).max_x = c := rfl

@[simp] theorem maxy_mk (a b c d : Nat) : (DirtyRect.mk a b c d).max_y = d := rfl

/-- Two rects cover no common pixel. -/
def disjointR (a b : DirtyRect) : Prop :=
  ∀ x y, ¬(a.pmem x y ∧ b.pmem x y)

/-- A pixel covered by some rect of the list. -/
def coveredIn (l : List DirtyRect) (x y : Nat) : Prop :=
  ∃ r ∈ l, r.pmem x y

/-! ### Sorting helper

Rust's `sort_unstable_by(|a, b| a.0.cmp(&b.0))` produces some permutation
that is nondecreasing on the compared key; ties are in an unspecified
order.  The embedding uses a concrete such permutation (insertion sort on
the key), which is a sound refinement and is kernel-computable. -/

def insBy {α : Type} (key : α → Nat) (a : α) : List α → List α
  | [] => [a]
  | b :: t => if key a ≤ key b then a :: b :: t else b :: insBy key a t

def sortBy {α : Type} (key : α → Nat) : List α → List α
  | [] => []
  | a :: t => insBy key a (sortBy key t)

/-- Rust `Vec::dedup` on an already sorted vector: drop adjacent
duplicates. -/
def dedupAdj : List Nat → List Nat
  | a :: b :: t => if a = b then dedupAdj (b :: t) else a :: dedupAdj (b :: t)
  | l => l

/-! ### `ComputeTiledDirtyRects::set_bboxes` (src/dirty_rect.rs) -/

/-- The loop body of the local fn `merge_intervals`: `last` is the
interval being grown, the list is the still unprocessed (sorted) tail. -/
def mergeGo (last : Nat × Nat) : List (Nat × Nat) → List (Nat × Nat)
  | [] => [last]
  | (s, e) :: t =>
    if s ≤ last.2 then mergeGo (last.1, max last.2 e) t
    else last :: mergeGo (s, e) t

/-- Source local fn `merge_intervals`: sort by interval start, then merge
overlapping or touching intervals. -/
def mergeIntervals (l : List (Nat × Nat)) : List (Nat × Nat) :=
  match sortBy Prod.fst l with
  | [] => []
  | a :: t => mergeGo a t

/-- The x-intervals of the tiled boxes meeting the horizontal strip
`[y0, y1)` (source: the `for b in &self.bboxes` filter). -/
def stripIntervals (bs : List DirtyRect) (y0 y1 : Nat) : List (Nat × Nat) :=
  (bs.filter fun b => decide (b.min_y < y1) && decide (y0 < b.max_y)).map
    fun b => (b.min_x, b.max_x)

/-- Source: the `f_yield` closure passed to `merge_intervals`.  `out` is
kept in reverse order, so its head is the Rust vector's `last_mut()`. -/
def emitRect (y0 y1 : Nat) (out : List DirtyRect) (iv : Nat × Nat) : List DirtyRect :=
  match out with
  | r :: rest =>
    if r.min_x = iv.1 ∧ r.max_x = iv.2 ∧ r.max_y = y0 then
      { r with max_y := y1 } :: rest
    else ⟨iv.1, y0, iv.2, y1⟩ :: r :: rest
  | [] => [⟨iv.1, y0, iv.2, y1⟩]

/-- One iteration of the `for strip in self.ys.windows(2)` loop. -/
def processStrip (bs : List DirtyRect) (out : List DirtyRect) (y0 y1 : Nat) :
    List DirtyRect :=
  (mergeIntervals (stripIntervals bs y0 y1)).foldl (emitRect y0 y1) out

/-- The `windows(2)` walk over the sorted, deduplicated y coordinates. -/
def stripsGo (bs : List DirtyRect) (out : List DirtyRect) : List Nat → List DirtyRect
  | y0 :: y1 :: t => stripsGo bs (processStrip bs out y0 y1) (y1 :: t)
  | _ => out

/-- Source `ComputeTiledDirtyRects::set_bboxes`: the resulting
`minimal_non_overlapping_bboxes` list (in the source's push order; the
reversal undoes the head-first accumulation of `emitRect`). -/
def setBBoxes (boxes : List DirtyRect) : List DirtyRect :=
  let bs := boxes.map DirtyRect.tiled
  let ys := dedupAdj (sortBy id (bs.flatMap fun b => [b.min_y, b.max_y]))
  (stripsGo bs [] ys).reverse

/-- Source `ComputeTiledDirtyRects::intersections`: filter by
`DirtyRect::intersects` (x axis only!), then trim with
`DirtyRect::intersection`. -/
def intersections (l : List DirtyRect) (o : DirtyRect) : List DirtyRect :=
  (l.filter fun b => b.intersects o).map fun b => b.intersection o

/-! ### Facts about the sorting helpers -/

theorem mem_insBy {α : Type} (key : α → Nat) (a x : α) (l : List α) :
    x ∈ insBy key a l ↔ x = a ∨ x ∈ l := by
  induction l with
  | nil => simp [insBy]
  | cons b t ih =>
    unfold insBy
    by_cases h : key a ≤ key b
    · simp [h]
    · simp only [h, if_false, List.mem_cons, ih]
      tauto

theorem pairwise_insBy {α : Type} (key : α → Nat) (a : α) {l : List α}
    (h : l.Pairwise fun p q => key p ≤ key q) :
    (insBy key a l).Pairwise fun p q => key p ≤ key q := by
  induction l with
  | nil => simp [insBy]
  | cons b t ih =>
    rcases List.pairwise_cons.mp h with ⟨hb, ht⟩
    unfold insBy
    by_cases hab : key a ≤ key b
    · rw [if_pos hab]
      refine List.pairwise_cons.mpr ⟨?_, h⟩
      intro x hx
      rcases List.mem_cons.mp hx with rfl | hx
      · exact hab
      · exact le_trans hab (hb x hx)
    · rw [if_neg hab]
      refine List.pairwise_cons.mpr ⟨?_, ih ht⟩
      intro x hx
      rcases (mem_insBy key a x t).mp hx with rfl | hx
      · exact le_of_not_le hab
      · exact hb x hx

theorem mem_sortBy {α : Type} (key : α → Nat) (x : α) (l : List α) :
    x ∈ sortBy key l ↔ x ∈ l := by
  induction l with
  | nil => simp [sortBy]
  | cons a t ih => simp [sortBy, mem_insBy, ih]

theorem pairwise_sortBy {α : Type} (key : α → Nat) (l : List α) :
    (sortBy key l).Pairwise fun p q => key p ≤ key q := by
  induction l with
  | nil => simp [sortBy]
  | cons a t ih => exact pairwise_insBy key a ih

theorem mem_dedupAdj (x : Nat) : ∀ l : List Nat, x ∈ dedupAdj l ↔ x ∈ l
  | [] => by simp [dedupAdj]
  | [a] => by simp [dedupAdj]
  | a :: b :: t => by
    unfold dedupAdj
    by_cases h : a = b
    · subst h
      rw [if_pos rfl, mem_dedupAdj x (a :: t)]
      simp
    · rw [if_neg h]
      simp [mem_dedupAdj x (b :: t)]

theorem dedupAdj_head : ∀ (b : Nat) (t : List Nat), (dedupAdj (b :: t)).head? = some b
  | _, [] => by simp [dedupAdj]
  | b, c :: t => by
    unfold dedupAdj
    by_cases h : b = c
    · rw [if_pos h, dedupAdj_head c t, h]
    · rw [if_neg h]
      simp

theorem chain_lt_dedupAdj : ∀ {l : List Nat}, l.Chain' (· ≤ ·) → (dedupAdj l).Chain' (· < ·)
  | [], _ => by simp [dedupAdj]
  | [_], _ => by simp [dedupAdj]
  | a :: b :: t, h => by
    rcases List.chain'_cons.mp h with ⟨hab, ht⟩
    unfold dedupAdj
    by_cases hEq : a = b
    · rw [if_pos hEq]
      exact chain_lt_dedupAdj ht
    · rw [if_neg hEq]
      refine List.chain'_cons'.mpr ⟨?_, chain_lt_dedupAdj ht⟩
      intro v hv
      rw [dedupAdj_head] at hv
      cases hv
      exact lt_of_le_of_ne hab hEq

/-- The y coordinate list built by `set_bboxes` is strictly increasing. -/
theorem ys_sorted (l : List Nat) : (dedupAdj (sortBy id l)).Pairwise (· < ·) := by
  have h1 : (sortBy id l).Pairwise (fun p q : Nat => p ≤ q) := pairwise_sortBy id l
  exact List.chain'_iff_pairwise.mp
    (chain_lt_dedupAdj (List.chain'_iff_pairwise.mpr h1))

theorem mem_ysList (x : Nat) (l : List Nat) :
    x ∈ dedupAdj (sortBy id l) ↔ x ∈ l := by
  rw [mem_dedupAdj, mem_sortBy]

/-! ### Facts about adjacent pairs of a strictly sorted list -/

theorem zip_tail_lift {α : Type} (a : α) (t : List α) (p : α × α)
    (h : p ∈ t.zip t.tail) : p ∈ (a :: t).zip t := by
  cases t with
  | nil => simp at h
  | cons b t' => exact List.mem_cons_of_mem _ h

theorem adj_lt : ∀ {l : List Nat}, l.Pairwise (· < ·) →
    ∀ p ∈ l.zip l.tail, p.1 < p.2
  | [], _, p, hp => by simp at hp
  | a :: t, h, p, hp => by
    cases t with
    | nil => simp at hp
    | cons b t' =>
      rcases List.mem_cons.mp hp with rfl | hp
      · exact (List.pairwise_cons.mp h).1 b (by simp)
      · exact adj_lt (List.pairwise_cons.mp h).2 p hp

theorem adj_sep : ∀ {l : List Nat}, l.Pairwise (· < ·) →
    ∀ p ∈ l.zip l.tail, ∀ c ∈ l, c ≤ p.1 ∨ p.2 ≤ c
  | [], _, p, hp, _, _ => by simp at hp
  | a :: t, h, p, hp, c, hc => by
    cases t with
    | nil => simp at hp
    | cons b t' =>
      rcases List.pairwise_cons.mp h with ⟨ha, ht⟩
      simp only [List.tail_cons, List.zip_cons_cons] at hp
      rcases List.mem_cons.mp hp with rfl | hp2
      · rcases List.mem_cons.mp hc with rfl | hc
        · exact Or.inl le_rfl
        · rcases List.mem_cons.mp hc with rfl | hc
          · exact Or.inr le_rfl
          · exact Or.inr (le_of_lt ((List.pairwise_cons.mp ht).1 c hc))
      · rcases List.mem_cons.mp hc with rfl | hc
        · obtain ⟨p1, p2⟩ := p
          have h1 : p1 ∈ b :: t' :=
            (List.of_mem_zip (show (p1, p2) ∈ (b :: t').zip t' from hp2)).1
          exact Or.inl (le_of_lt (ha p1 h1))
        · exact adj_sep ht p hp2 c hc

theorem between_consec : ∀ {l : List Nat}, l.Pairwise (· < ·) →
    ∀ a ∈ l, ∀ b ∈ l, ∀ y : Nat, a ≤ y → y < b →
    ∃ p ∈ l.zip l.tail, p.1 ≤ y ∧ y < p.2
  | [], _, a, ha, _, _, _, _, _ => by simp at ha
  | x :: t, h, a, ha, b, hb, y, hay, hyb => by
    rcases List.pairwise_cons.mp h with ⟨hx, ht⟩
    rcases List.mem_cons.mp hb with rfl | hbt
    · exfalso
      rcases List.mem_cons.mp ha with rfl | hat
      · omega
      · have := hx a hat
        omega
    · cases t with
      | nil => simp at hbt
      | cons c t' =>
        rcases List.mem_cons.mp ha with rfl | hat
        · by_cases hyc : y < c
          · exact ⟨(a, c), by simp, hay, hyc⟩
          · obtain ⟨p, hp, h1, h2⟩ :=
              between_consec ht c (by simp) b hbt y (by omega) hyb
            exact ⟨p, zip_tail_lift a _ p hp, h1, h2⟩
        · obtain ⟨p, hp, h1, h2⟩ := between_consec ht a hat b hbt y hay hyb
          exact ⟨p, zip_tail_lift x _ p hp, h1, h2⟩

theorem head_min {x : Nat} {t : List Nat} (h : (x :: t).Pairwise (· < ·)) :
    ∀ c ∈ x :: t, x ≤ c := by
  intro c hc
  rcases List.mem_cons.mp hc with rfl | hc
  · exact le_rfl
  · exact le_of_lt ((List.pairwise_cons.mp h).1 c hc)

theorem last_max : ∀ {l : List Nat} (hne : l ≠ []), l.Pairwise (· < ·) →
    ∀ c ∈ l, c ≤ l.getLast hne
  | [], hne, _, _, _ => absurd rfl hne
  | [a], _, _, c, hc => by
    simp at hc
    simp [hc]
  | a :: b :: t, _, h, c, hc => by
    rcases List.pairwise_cons.mp h with ⟨ha, ht⟩
    rw [List.getLast_cons (by simp)]
    rcases List.mem_cons.mp hc with rfl | hc
    · exact le_of_lt (ha _ (List.getLast_mem _))
    · exact last_max (by simp) ht c hc

/-! ### Facts about `merge_intervals` -/

/-- Every interval of the list is well-formed (`start ≤ end`). -/
def NormIv (l : List (Nat × Nat)) : Prop := ∀ p ∈ l, p.1 ≤ p.2

/-- Strict separation of two intervals. -/
def sepIv (p q : Nat × Nat) : Prop := p.2 < q.1

theorem mergeGo_shape : ∀ (t : List (Nat × Nat)) (last : Nat × Nat),
    ∃ E rest, mergeGo last t = (last.1, E) :: rest ∧ last.2 ≤ E
  | [], last => ⟨last.2, [], rfl, le_rfl⟩
  | (s, e) :: t, last => by
    unfold mergeGo
    by_cases h : s ≤ last.2
    · rw [if_pos h]
      obtain ⟨E, rest, heq, hle⟩ := mergeGo_shape t (last.1, max last.2 e)
      exact ⟨E, rest, heq, le_trans (le_max_left _ _) hle⟩
    · rw [if_neg h]
      exact ⟨last.2, mergeGo (s, e) t, rfl, le_rfl⟩

theorem mergeGo_props : ∀ (t : List (Nat × Nat)) (last : Nat × Nat),
    last.1 ≤ last.2 → NormIv t →
    (last :: t).Pairwise (fun p q => p.1 ≤ q.1) →
    NormIv (mergeGo last t) ∧ (mergeGo last t).Pairwise sepIv ∧
      ∀ p ∈ mergeGo last t, last.1 ≤ p.1
  | [], last, hl, _, _ => by
    refine ⟨?_, by simp [mergeGo], ?_⟩ <;> simp [mergeGo, NormIv, hl]
  | (s, e) :: t, last, hl, hn, hp => by
    rcases List.pairwise_cons.mp hp with ⟨hfst, hp'⟩
    rcases List.pairwise_cons.mp hp' with ⟨hfst', hpt⟩
    have hse : s ≤ e := hn (s, e) (by simp)
    have hnt : NormIv t := fun p hp => hn p (List.mem_cons_of_mem _ hp)
    unfold mergeGo
    by_cases h : s ≤ last.2
    · rw [if_pos h]
      refine mergeGo_props t (last.1, max last.2 e)
        (le_trans hl (le_max_left _ _)) hnt ?_
      refine List.pairwise_cons.mpr ⟨?_, hpt⟩
      intro q hq
      exact hfst q (List.mem_cons_of_mem _ hq)
    · rw [if_neg h]
      obtain ⟨hn1, hp1, hb1⟩ := mergeGo_props t (s, e) hse hnt
        (List.pairwise_cons.mpr ⟨hfst', hpt⟩)
      refine ⟨?_, ?_, ?_⟩
      · intro p hp
        rcases List.mem_cons.mp hp with rfl | hp
        · exact hl
        · exact hn1 p hp
      · refine List.pairwise_cons.mpr ⟨?_, hp1⟩
        intro q hq
        have hsq : s ≤ q.1 := hb1 q hq
        unfold sepIv
        omega
      · intro p hp
        rcases List.mem_cons.mp hp with rfl | hp
        · exact le_rfl
        · have hsp : s ≤ p.1 := hb1 p hp
          have hls2 : last.1 ≤ s := hfst (s, e) (by simp)
          omega

theorem mergeGo_union : ∀ (t : List (Nat × Nat)) (last : Nat × Nat),
    last.1 ≤ last.2 → NormIv t →
    (last :: t).Pairwise (fun p q => p.1 ≤ q.1) →
    ∀ x, (∃ p ∈ mergeGo last t, p.1 ≤ x ∧ x < p.2) ↔
      ((last.1 ≤ x ∧ x < last.2) ∨ ∃ p ∈ t, p.1 ≤ x ∧ x < p.2)
  | [], last, _, _, _, x => by simp [mergeGo]
  | (s, e) :: t, last, hl, hn, hp, x => by
    rcases List.pairwise_cons.mp hp with ⟨hfst, hp'⟩
    rcases List.pairwise_cons.mp hp' with ⟨hfst', hpt⟩
    have hse : s ≤ e := hn (s, e) (by simp)
    have hnt : NormIv t := fun p hp => hn p (List.mem_cons_of_mem _ hp)
    have hls : last.1 ≤ s := hfst (s, e) (by simp)
    unfold mergeGo
    by_cases h : s ≤ last.2
    · rw [if_pos h]
      have ih := mergeGo_union t (last.1, max last.2 e)
        (le_trans hl (le_max_left _ _)) hnt
        (List.pairwise_cons.mpr ⟨fun q hq => hfst q (List.mem_cons_of_mem _ hq), hpt⟩) x
      rw [ih]
      constructor
      · rintro (h1 | h2)
        · have h1' : last.1 ≤ x ∧ x < max last.2 e := h1
          rcases Nat.le_total last.2 e with hme | hme
          · rw [max_eq_right hme] at h1'
            by_cases hx2 : x < last.2
            · exact Or.inl ⟨h1'.1, hx2⟩
            · exact Or.inr ⟨(s, e), by simp, by omega⟩
          · rw [max_eq_left hme] at h1'
            exact Or.inl h1'
        · obtain ⟨p, hp2, hx⟩ := h2
          exact Or.inr ⟨p, List.mem_cons_of_mem _ hp2, hx⟩
      · rintro (h1 | ⟨p, hp2, hx⟩)
        · exact Or.inl
            (show last.1 ≤ x ∧ x < max last.2 e from
              ⟨h1.1, lt_of_lt_of_le h1.2 (le_max_left _ _)⟩)
        · rcases List.mem_cons.mp hp2 with rfl | hp2
          · exact Or.inl
              (show last.1 ≤ x ∧ x < max last.2 e from
                ⟨by omega, lt_of_lt_of_le hx.2 (le_max_right _ _)⟩)
          · exact Or.inr ⟨p, hp2, hx⟩
    · rw [if_neg h]
      have ih := mergeGo_union t (s, e) hse hnt
        (List.pairwise_cons.mpr ⟨hfst', hpt⟩) x
      constructor
      · rintro ⟨p, hpmem, hx⟩
        rcases List.mem_cons.mp hpmem with rfl | hpmem
        · exact Or.inl hx
        · rcases ih.mp ⟨p, hpmem, hx⟩ with h1 | h2
          · exact Or.inr ⟨(s, e), by simp, h1⟩
          · obtain ⟨q, hq, hxq⟩ := h2
            exact Or.inr ⟨q, List.mem_cons_of_mem _ hq, hxq⟩
      · rintro (h1 | ⟨q, hq, hxq⟩)
        · exact ⟨last, by simp, h1⟩
        · rcases List.mem_cons.mp hq with rfl | hq
          · obtain ⟨p, hpmem, hx⟩ := ih.mpr (Or.inl hxq)
            exact ⟨p, List.mem_cons_of_mem _ hpmem, hx⟩
          · obtain ⟨p, hpmem, hx⟩ := ih.mpr (Or.inr ⟨q, hq, hxq⟩)
            exact ⟨p, List.mem_cons_of_mem _ hpmem, hx⟩

theorem mergeIntervals_props (l : List (Nat × Nat)) (hn : NormIv l) :
    NormIv (mergeIntervals l) ∧ (mergeIntervals l).Pairwise sepIv ∧
      ∀ x, (∃ p ∈ mergeIntervals l, p.1 ≤ x ∧ x < p.2) ↔
        ∃ p ∈ l, p.1 ≤ x ∧ x < p.2 := by
  have hmem : ∀ p, p ∈ sortBy Prod.fst l ↔ p ∈ l := fun p => mem_sortBy _ p l
  have hsorted := pairwise_sortBy Prod.fst l
  unfold mergeIntervals
  rcases hs : sortBy Prod.fst l with _ | ⟨a, t⟩
  · refine ⟨by simp [NormIv], by simp, ?_⟩
    intro x
    simp only [List.not_mem_nil, false_and, exists_false, exists_prop, false_iff]
    rintro ⟨p, hp, _⟩
    rw [← hmem, hs] at hp
    simp at hp
  · rw [hs] at hsorted
    have hna : a.1 ≤ a.2 := hn a ((hmem a).mp (by rw [hs]; simp))
    have hnt : NormIv t := fun p hp =>
      hn p ((hmem p).mp (by rw [hs]; exact List.mem_cons_of_mem _ hp))
    obtain ⟨h1, h2, _⟩ := mergeGo_props t a hna hnt hsorted
    refine ⟨h1, h2, ?_⟩
    intro x
    rw [mergeGo_union t a hna hnt hsorted x]
    constructor
    · rintro (hx | ⟨p, hp, hx⟩)
      · exact ⟨a, (hmem a).mp (by rw [hs]; simp), hx⟩
      · exact ⟨p, (hmem p).mp (by rw [hs]; exact List.mem_cons_of_mem _ hp), hx⟩
    · rintro ⟨p, hp, hx⟩
      rw [← hmem, hs] at hp
      rcases List.mem_cons.mp hp with rfl | hp
      · exact Or.inl hx
      · exact Or.inr ⟨p, hp, hx⟩

/-! ### Disjointness helpers -/

theorem disjointR_symm {a b : DirtyRect} (h : disjointR a b) : disjointR b a :=
  fun x y hxy => h x y ⟨hxy.2, hxy.1⟩

/-- A fresh strip piece `[s, e) × [y0, y1)` misses every rect of `out`:
rects entirely below the strip are y-disjoint, rects already touched in
this strip end in x before `B ≤ s`. -/
theorem piece_disjoint {y0 y1 s e B : Nat} {out : List DirtyRect}
    (h4 : ∀ r ∈ out, y0 < r.max_y → r.max_x ≤ B) (hBs : B ≤ s) :
    ∀ r ∈ out, disjointR (⟨s, y0, e, y1⟩ : DirtyRect) r := by
  intro r hr x y hxy
  obtain ⟨hp, hr2⟩ := hxy
  simp only [DirtyRect.pmem, minx_mk, miny_mk, maxx_mk, maxy_mk] at hp hr2
  by_cases hcase : y0 < r.max_y
  · have := h4 r hr hcase
    omega
  · omega

/-- Extending the previous rect down into the strip adds exactly the
strip piece to its pixel set. -/
theorem ext_pmem {r : DirtyRect} {y0 y1 s e : Nat} (hyy : y0 ≤ y1)
    (hwf : r.min_y ≤ r.max_y) (hc1 : r.min_x = s) (hc2 : r.max_x = e)
    (hc3 : r.max_y = y0) :
    ∀ x y, DirtyRect.pmem { r with max_y := y1 } x y ↔
      (r.pmem x y ∨ DirtyRect.pmem ⟨s, y0, e, y1⟩ x y) := by
  intro x y
  simp only [DirtyRect.pmem, minx_mk, miny_mk, maxx_mk, maxy_mk]
  omega

/-- Invariant of the `f_yield` fold inside one strip `[y0, y1)`.
`C` is the pixel set covered before the strip, `D` the x-union of the
already processed merged intervals, `B` an upper bound for the ends of
the touched rects that is below every remaining interval start. -/
theorem fold_emit_inv (y0 y1 : Nat) (hy : y0 < y1) (C : Nat → Nat → Prop) :
    ∀ (m : List (Nat × Nat)) (out : List DirtyRect) (B : Nat) (D : Nat → Prop),
      m.Pairwise sepIv → NormIv m → (∀ p ∈ m, B ≤ p.1) →
      (∀ r ∈ out, r.min_y ≤ r.max_y) →
      (∀ r ∈ out, r.max_y ≤ y1) →
      out.Pairwise disjointR →
      (∀ r ∈ out, y0 < r.max_y → r.max_x ≤ B) →
      (∀ x y, coveredIn out x y ↔ (C x y ∨ (y0 ≤ y ∧ y < y1 ∧ D x))) →
      ((m.foldl (emitRect y0 y1) out).Pairwise disjointR ∧
        (∀ r ∈ m.foldl (emitRect y0 y1) out, r.min_y ≤ r.max_y) ∧
        (∀ r ∈ m.foldl (emitRect y0 y1) out, r.max_y ≤ y1) ∧
        ∀ x y, coveredIn (m.foldl (emitRect y0 y1) out) x y ↔
          (C x y ∨ (y0 ≤ y ∧ y < y1 ∧ (D x ∨ ∃ p ∈ m, p.1 ≤ x ∧ x < p.2))))
  | [], out, B, D, _, _, _, k0, k1, k2, _, k3 => by
    refine ⟨k2, k0, k1, ?_⟩
    intro x y
    rw [List.foldl_nil, k3 x y]
    simp
  | (s, e) :: m', out, B, D, hsep, hnorm, hB, k0, k1, k2, k4, k3 => by
    rcases List.pairwise_cons.mp hsep with ⟨hsephd, hsep'⟩
    have hse : s ≤ e := hnorm (s, e) (by simp)
    have hBs : B ≤ s := hB (s, e) (by simp)
    have hnorm' : NormIv m' := fun p hp => hnorm p (List.mem_cons_of_mem _ hp)
    have hB' : ∀ p ∈ m', e ≤ p.1 := fun p hp => le_of_lt (hsephd p hp)
    rw [List.foldl_cons]
    have main : ∀ out', out' = emitRect y0 y1 out (s, e) →
        (∀ r ∈ out', r.min_y ≤ r.max_y) ∧
        (∀ r ∈ out', r.max_y ≤ y1) ∧
        out'.Pairwise disjointR ∧
        (∀ r ∈ out', y0 < r.max_y → r.max_x ≤ e) ∧
        (∀ x y, coveredIn out' x y ↔
          (C x y ∨ (y0 ≤ y ∧ y < y1 ∧ (D x ∨ (s ≤ x ∧ x < e))))) := by
      intro out' hout'
      match out, hout' with
      | [], hout' =>
        subst hout'
        have hC : ∀ x y, ¬(C x y ∨ (y0 ≤ y ∧ y < y1 ∧ D x)) := by
          intro x y hcontra
          have := (k3 x y).mpr hcontra
          simp [coveredIn] at this
        refine ⟨?_, ?_, ?_, ?_, ?_⟩
        · intro r hr
          simp only [emitRect, List.mem_singleton] at hr
          subst hr
          exact le_of_lt hy
        · intro r hr
          simp only [emitRect, List.mem_singleton] at hr
          subst hr
          exact le_rfl
        · simp [emitRect]
        · intro r hr
          simp only [emitRect, List.mem_singleton] at hr
          subst hr
          exact fun _ => le_rfl
        · intro x y
          have hC' := hC x y
          simp only [emitRect, coveredIn, List.mem_singleton, exists_eq_left,
            DirtyRect.pmem, minx_mk, miny_mk, maxx_mk, maxy_mk]
          constructor
          · intro hx
            exact Or.inr ⟨by omega, by omega, Or.inr ⟨by omega, by omega⟩⟩
          · rintro (hc | ⟨hy0, hy1, hD | hx⟩)
            · exact absurd (Or.inl hc) hC'
            · exact absurd (Or.inr ⟨hy0, hy1, hD⟩) hC'
            · omega
      | r :: rest, hout' =>
        by_cases hcond : r.min_x = s ∧ r.max_x = e ∧ r.max_y = y0
        · -- vertical extension of the previous rect
          have hout2 : out' = { r with max_y := y1 } :: rest := by
            rw [hout']
            simp only [emitRect]
            rw [if_pos hcond]
          subst hout2
          obtain ⟨hc1, hc2, hc3⟩ := hcond
          have hwfr : r.min_y ≤ r.max_y := k0 r (by simp)
          have hpm := @ext_pmem r y0 y1 s e (le_of_lt hy) hwfr hc1 hc2 hc3
          rcases List.pairwise_cons.mp k2 with ⟨hkr, hkrest⟩
          have hpdisj := @piece_disjoint y0 y1 s e B rest
            (fun q hq => k4 q (List.mem_cons_of_mem _ hq)) hBs
          refine ⟨?_, ?_, ?_, ?_, ?_⟩
          · intro q hq
            rcases List.mem_cons.mp hq with rfl | hq
            · simpa using le_trans hwfr (by omega)
            · exact k0 q (List.mem_cons_of_mem _ hq)
          · intro q hq
            rcases List.mem_cons.mp hq with rfl | hq
            · exact le_rfl
            · exact k1 q (List.mem_cons_of_mem _ hq)
          · refine List.pairwise_cons.mpr ⟨?_, hkrest⟩
            intro q hq x y hxy
            rcases (hpm x y).mp hxy.1 with hr | hpiece
            · exact hkr q hq x y ⟨hr, hxy.2⟩
            · exact hpdisj q hq x y ⟨hpiece, hxy.2⟩
          · intro q hq _
            rcases List.mem_cons.mp hq with rfl | hq
            · simpa using le_of_eq hc2
            · by_cases hcase : y0 < q.max_y
              · exact le_trans (k4 q (List.mem_cons_of_mem _ hq) hcase)
                  (le_trans hBs hse)
              · exact absurd (lt_of_lt_of_le ‹y0 < q.max_y› le_rfl) hcase
          · intro x y
            have base := k3 x y
            simp only [coveredIn, List.mem_cons] at base ⊢
            constructor
            · rintro ⟨q, hq | hq, hqm⟩
              · subst hq
                rcases (hpm x y).mp hqm with hr | hpiece
                · rcases base.mp ⟨r, Or.inl rfl, hr⟩ with hc | hstrip
                  · exact Or.inl hc
                  · exact Or.inr ⟨hstrip.1, hstrip.2.1, Or.inl hstrip.2.2⟩
                · simp only [DirtyRect.pmem] at hpiece
                  exact Or.inr ⟨by omega, by omega, Or.inr ⟨by omega, by omega⟩⟩
              · rcases base.mp ⟨q, Or.inr hq, hqm⟩ with hc | hstrip
                · exact Or.inl hc
                · exact Or.inr ⟨hstrip.1, hstrip.2.1, Or.inl hstrip.2.2⟩
            · rintro (hc | ⟨hy0, hy1, hD | hx⟩)
              · rcases base.mpr (Or.inl hc) with ⟨q, hq | hq, hqm⟩
                · subst hq
                  exact ⟨_, Or.inl rfl, (hpm x y).mpr (Or.inl hqm)⟩
                · exact ⟨q, Or.inr hq, hqm⟩
              · rcases base.mpr (Or.inr ⟨hy0, hy1, hD⟩) with ⟨q, hq | hq, hqm⟩
                · subst hq
                  exact ⟨_, Or.inl rfl, (hpm x y).mpr (Or.inl hqm)⟩
                · exact ⟨q, Or.inr hq, hqm⟩
              · refine ⟨_, Or.inl rfl, (hpm x y).mpr (Or.inr ?_)⟩
                simp only [DirtyRect.pmem]
                omega
        · -- push a fresh rect for this interval
          have hout2 : out' = ⟨s, y0, e, y1⟩ :: r :: rest := by
            rw [hout']
            simp only [emitRect]
            rw [if_neg hcond]
          subst hout2
          have hpdisj := @piece_disjoint y0 y1 s e B (r :: rest) k4 hBs
          refine ⟨?_, ?_, ?_, ?_, ?_⟩
          · intro q hq
            rcases List.mem_cons.mp hq with rfl | hq
            · exact le_of_lt hy
            · exact k0 q hq
          · intro q hq
            rcases List.mem_cons.mp hq with rfl | hq
            · exact le_rfl
            · exact k1 q hq
          · exact List.pairwise_cons.mpr ⟨hpdisj, k2⟩
          · intro q hq _
            rcases List.mem_cons.mp hq with rfl | hq
            · exact le_rfl
            · by_cases hcase : y0 < q.max_y
              · exact le_trans (k4 q hq hcase) (le_trans hBs hse)
              · exact absurd (lt_of_lt_of_le ‹y0 < q.max_y› le_rfl) hcase
          · intro x y
            have base := k3 x y
            simp only [coveredIn, List.mem_cons] at base ⊢
            constructor
            · rintro ⟨q, hq | hq, hqm⟩
              · subst hq
                simp only [DirtyRect.pmem] at hqm
                exact Or.inr ⟨by omega, by omega, Or.inr ⟨by omega, by omega⟩⟩
              · rcases base.mp ⟨q, hq, hqm⟩ with hc | hstrip
                · exact Or.inl hc
                · exact Or.inr ⟨hstrip.1, hstrip.2.1, Or.inl hstrip.2.2⟩
            · rintro (hc | ⟨hy0, hy1, hD | hx⟩)
              · obtain ⟨q, hq, hqm⟩ := base.mpr (Or.inl hc)
                exact ⟨q, Or.inr hq, hqm⟩
              · obtain ⟨q, hq, hqm⟩ := base.mpr (Or.inr ⟨hy0, hy1, hD⟩)
                exact ⟨q, Or.inr hq, hqm⟩
              · refine ⟨_, Or.inl rfl, ?_⟩
                simp only [DirtyRect.pmem]
                omega
    obtain ⟨j0, j1, j2, j4, j3⟩ := main _ rfl
    have ih := fold_emit_inv y0 y1 hy C m' (emitRect y0 y1 out (s, e)) e
      (fun x => D x ∨ (s ≤ x ∧ x < e)) hsep' hnorm' hB' j0 j1 j2 j4 j3
    refine ⟨ih.1, ih.2.1, ih.2.2.1, ?_⟩
    intro x y
    rw [ih.2.2.2 x y]
    constructor
    · rintro (hc | ⟨hy0, hy1, (hD | hx) | ⟨p, hp, hxp⟩⟩)
      · exact Or.inl hc
      · exact Or.inr ⟨hy0, hy1, Or.inl hD⟩
      · exact Or.inr ⟨hy0, hy1, Or.inr ⟨(s, e), by simp, hx⟩⟩
      · exact Or.inr ⟨hy0, hy1, Or.inr ⟨p, List.mem_cons_of_mem _ hp, hxp⟩⟩
    · rintro (hc | ⟨hy0, hy1, hD | ⟨p, hp, hxp⟩⟩)
      · exact Or.inl hc
      · exact Or.inr ⟨hy0, hy1, Or.inl (Or.inl hD)⟩
      · rcases List.mem_cons.mp hp with rfl | hp
        · exact Or.inr ⟨hy0, hy1, Or.inl (Or.inr hxp)⟩
        · exact Or.inr ⟨hy0, hy1, Or.inr ⟨p, hp, hxp⟩⟩

/-! ### One full strip -/

theorem stripIntervals_norm (bs : List DirtyRect)
    (hwfx : ∀ b ∈ bs, b.min_x ≤ b.max_x) (y0 y1 : Nat) :
    NormIv (stripIntervals bs y0 y1) := by
  intro p hp
  simp only [stripIntervals, List.mem_map, List.mem_filter] at hp
  obtain ⟨b, ⟨hb, _⟩, rfl⟩ := hp
  exact hwfx b hb

theorem stripIntervals_cov (bs : List DirtyRect) (y0 y1 x : Nat) :
    (∃ p ∈ stripIntervals bs y0 y1, p.1 ≤ x ∧ x < p.2) ↔
      ∃ b ∈ bs, (b.min_y < y1 ∧ y0 < b.max_y) ∧ b.min_x ≤ x ∧ x < b.max_x := by
  simp only [stripIntervals, List.mem_map, List.mem_filter, Bool.and_eq_true,
    decide_eq_true_eq]
  constructor
  · rintro ⟨p, ⟨b, ⟨hb, h1, h2⟩, rfl⟩, hx⟩
    exact ⟨b, hb, ⟨h1, h2⟩, hx⟩
  · rintro ⟨b, hb, ⟨h1, h2⟩, hx⟩
    exact ⟨(b.min_x, b.max_x), ⟨b, ⟨hb, h1, h2⟩, rfl⟩, hx⟩

theorem processStrip_spec (bs : List DirtyRect)
    (hwfx : ∀ b ∈ bs, b.min_x ≤ b.max_x)
    (out : List DirtyRect) (y0 y1 : Nat) (hy : y0 < y1)
    (h0 : ∀ r ∈ out, r.min_y ≤ r.max_y)
    (h1 : ∀ r ∈ out, r.max_y ≤ y0)
    (h2 : out.Pairwise disjointR)
    (h3 : ∀ x y, coveredIn out x y ↔ (coveredIn bs x y ∧ y < y0)) :
    (processStrip bs out y0 y1).Pairwise disjointR ∧
      (∀ r ∈ processStrip bs out y0 y1, r.min_y ≤ r.max_y) ∧
      (∀ r ∈ processStrip bs out y0 y1, r.max_y ≤ y1) ∧
      ∀ x y, coveredIn (processStrip bs out y0 y1) x y ↔
        ((coveredIn bs x y ∧ y < y0) ∨
          (y0 ≤ y ∧ y < y1 ∧ ∃ b ∈ bs, (b.min_y < y1 ∧ y0 < b.max_y) ∧
            b.min_x ≤ x ∧ x < b.max_x)) := by
  obtain ⟨hn, hsep, hcov⟩ := mergeIntervals_props _ (stripIntervals_norm bs hwfx y0 y1)
  obtain ⟨j2, j0, j1, j3⟩ := fold_emit_inv y0 y1 hy
    (fun x y => coveredIn bs x y ∧ y < y0)
    (mergeIntervals (stripIntervals bs y0 y1)) out 0 (fun _ => False)
    hsep hn (fun p _ => Nat.zero_le _) h0
    (fun r hr => le_trans (h1 r hr) (le_of_lt hy)) h2
    (fun r hr hlt => absurd (lt_of_lt_of_le hlt (h1 r hr)) (lt_irrefl _))
    (by intro x y; rw [h3 x y]; simp)
  refine ⟨j2, j0, j1, ?_⟩
  intro x y
  unfold processStrip
  rw [j3 x y]
  constructor
  · rintro (hc | ⟨ha, hb', hf | hm⟩)
    · exact Or.inl hc
    · exact hf.elim
    · exact Or.inr ⟨ha, hb', (stripIntervals_cov bs y0 y1 x).mp ((hcov x).mp hm)⟩
  · rintro (hc | ⟨ha, hb', hm⟩)
    · exact Or.inl hc
    · exact Or.inr ⟨ha, hb',
        Or.inr ((hcov x).mpr ((stripIntervals_cov bs y0 y1 x).mpr hm))⟩

/-- For `y` inside the strip `[y0, y1)` of two consecutive sorted y
coordinates, the strip membership test of the source coincides with
`y` lying in the box's y range. -/
theorem strip_char {ysG : List Nat} (hpw : ysG.Pairwise (· < ·))
    {y0 y1 : Nat} (hadj : (y0, y1) ∈ ysG.zip ysG.tail)
    {b : DirtyRect} (hmin : b.min_y ∈ ysG) (hmax : b.max_y ∈ ysG)
    {y : Nat} (hy0 : y0 ≤ y) (hy1 : y < y1) :
    (b.min_y < y1 ∧ y0 < b.max_y) ↔ (b.min_y ≤ y ∧ y < b.max_y) := by
  have h1 : b.min_y ≤ y0 ∨ y1 ≤ b.min_y := adj_sep hpw (y0, y1) hadj b.min_y hmin
  have h2 : b.max_y ≤ y0 ∨ y1 ≤ b.max_y := adj_sep hpw (y0, y1) hadj b.max_y hmax
  omega

/-! ### The full strip walk -/

theorem stripsGo_spec (bs : List DirtyRect) (ysG : List Nat)
    (hpw : ysG.Pairwise (· < ·))
    (hwfx : ∀ b ∈ bs, b.min_x ≤ b.max_x)
    (hbmem : ∀ b ∈ bs, b.min_y ∈ ysG ∧ b.max_y ∈ ysG) :
    ∀ (rest : List Nat) (y0 : Nat) (out : List DirtyRect),
      (∀ p ∈ (y0 :: rest).zip rest, p ∈ ysG.zip ysG.tail) →
      (∀ r ∈ out, r.min_y ≤ r.max_y) →
      (∀ r ∈ out, r.max_y ≤ y0) →
      out.Pairwise disjointR →
      (∀ x y, coveredIn out x y ↔ (coveredIn bs x y ∧ y < y0)) →
      (stripsGo bs out (y0 :: rest)).Pairwise disjointR ∧
        ∀ x y, coveredIn (stripsGo bs out (y0 :: rest)) x y ↔
          (coveredIn bs x y ∧ y < (y0 :: rest).getLast (by simp))
  | [], y0, out, _, _, _, h2, h3 => by
    refine ⟨h2, ?_⟩
    intro x y
    exact h3 x y
  | y1 :: t, y0, out, hadj, h0, h1, h2, h3 => by
    have hpair : (y0, y1) ∈ ysG.zip ysG.tail := hadj (y0, y1) (by simp)
    have hy01 : y0 < y1 := adj_lt hpw (y0, y1) hpair
    obtain ⟨j2, j0, j1, j3⟩ := processStrip_spec bs hwfx out y0 y1 hy01 h0 h1 h2 h3
    have hnext : ∀ x y, coveredIn (processStrip bs out y0 y1) x y ↔
        (coveredIn bs x y ∧ y < y1) := by
      intro x y
      rw [j3 x y]
      constructor
      · rintro (⟨hc, hyy⟩ | ⟨ha, hb', b, hbm, hsel, hx⟩)
        · exact ⟨hc, by omega⟩
        · have hchar := strip_char hpw hpair (hbmem b hbm).1 (hbmem b hbm).2 ha hb'
          have hyy := hchar.mp hsel
          exact ⟨⟨b, hbm, ⟨hx.1, hx.2, hyy.1, hyy.2⟩⟩, hb'⟩
      · rintro ⟨⟨b, hbm, hbp⟩, hyy⟩
        by_cases hcase : y < y0
        · exact Or.inl ⟨⟨b, hbm, hbp⟩, hcase⟩
        · have ha : y0 ≤ y := le_of_not_lt hcase
          obtain ⟨hx1, hx2, hy1', hy2'⟩ := hbp
          have hchar := strip_char hpw hpair (hbmem b hbm).1 (hbmem b hbm).2 ha hyy
          exact Or.inr ⟨ha, hyy, b, hbm, hchar.mpr ⟨hy1', hy2'⟩, hx1, hx2⟩
    have hadj' : ∀ p ∈ (y1 :: t).zip t, p ∈ ysG.zip ysG.tail := fun p hp =>
      hadj p (zip_tail_lift y0 (y1 :: t) p hp)
    have step := stripsGo_spec bs ysG hpw hwfx hbmem t y1
      (processStrip bs out y0 y1) hadj' j0 j1 j2 hnext
    exact step

/-! ### The claimed decomposition property of `set_bboxes` -/

/-- The tile snapping exactly as worded by the specification (min rounded
down, max rounded up to a multiple of 64, without u32 wrap). -/
def snapSpec (r : DirtyRect) : DirtyRect :=
  ⟨r.min_x / TILE_SIZE * TILE_SIZE, r.min_y / TILE_SIZE * TILE_SIZE,
    divCeil64 r.max_x * TILE_SIZE, divCeil64 r.max_y * TILE_SIZE⟩

theorem tiled_nomod {v : Nat} (h : v + TILE_SIZE ≤ U32) :
    divCeil64 v * TILE_SIZE % U32 = divCeil64 v * TILE_SIZE := by
  unfold divCeil64 TILE_SIZE U32 at *
  apply Nat.mod_eq_of_lt
  split <;> omega

theorem le_tiledCeil (v : Nat) : v ≤ divCeil64 v * TILE_SIZE := by
  unfold divCeil64 TILE_SIZE
  split <;> omega

theorem tiledFloor_le (v : Nat) : v / TILE_SIZE * TILE_SIZE ≤ v := by
  unfold TILE_SIZE
  omega

theorem tiled_eq_snap {b : DirtyRect} (hx : b.max_x + TILE_SIZE ≤ U32)
    (hy : b.max_y + TILE_SIZE ≤ U32) : b.tiled = snapSpec b := by
  unfold DirtyRect.tiled snapSpec
  rw [tiled_nomod hx, tiled_nomod hy]

/-- C3: for every finite set of well-formed input rects (whose maxima
stay clear of u32 wrap-around), the list produced by `set_bboxes`
(a) consists of pairwise disjoint rects and (b) covers exactly the union
of the tile-snapped inputs; moreover under these bounds `tiled` is
exactly the specification's snapping. -/
theorem set_bboxes_decomposition (boxes : List DirtyRect)
    (hwf : ∀ b ∈ boxes, b.min_x ≤ b.max_x ∧ b.min_y ≤ b.max_y)
    (hbound : ∀ b ∈ boxes, b.max_x + TILE_SIZE ≤ U32 ∧ b.max_y + TILE_SIZE ≤ U32) :
    (setBBoxes boxes).Pairwise disjointR ∧
      (∀ b ∈ boxes, b.tiled = snapSpec b) ∧
      ∀ x y, coveredIn (setBBoxes boxes) x y ↔
        coveredIn (boxes.map DirtyRect.tiled) x y := by
  have hsnap : ∀ b ∈ boxes, b.tiled = snapSpec b := fun b hb =>
    tiled_eq_snap (hbound b hb).1 (hbound b hb).2
  have hwfx : ∀ b ∈ boxes.map DirtyRect.tiled, b.min_x ≤ b.max_x := by
    intro b hb
    obtain ⟨c, hc, rfl⟩ := List.mem_map.mp hb
    rw [hsnap c hc]
    unfold snapSpec
    simp only [minx_mk, maxx_mk]
    calc c.min_x / TILE_SIZE * TILE_SIZE ≤ c.min_x := tiledFloor_le _
      _ ≤ c.max_x := (hwf c hc).1
      _ ≤ _ := le_tiledCeil _
  have hpw : (dedupAdj (sortBy id ((boxes.map DirtyRect.tiled).flatMap
      fun b => [b.min_y, b.max_y]))).Pairwise (· < ·) := ys_sorted _
  have hbmem : ∀ b ∈ boxes.map DirtyRect.tiled,
      b.min_y ∈ dedupAdj (sortBy id ((boxes.map DirtyRect.tiled).flatMap
        fun b => [b.min_y, b.max_y])) ∧
      b.max_y ∈ dedupAdj (sortBy id ((boxes.map DirtyRect.tiled).flatMap
        fun b => [b.min_y, b.max_y])) := by
    intro b hb
    constructor <;>
      (rw [mem_ysList]; exact List.mem_flatMap.mpr ⟨b, hb, by simp⟩)
  have hsb : setBBoxes boxes = (stripsGo (boxes.map DirtyRect.tiled) []
      (dedupAdj (sortBy id ((boxes.map DirtyRect.tiled).flatMap
        fun b => [b.min_y, b.max_y])))).reverse := rfl
  rcases hys2 : dedupAdj (sortBy id ((boxes.map DirtyRect.tiled).flatMap
      fun b => [b.min_y, b.max_y])) with _ | ⟨y0, rest⟩
  · have hbsnil : ∀ x y, ¬ coveredIn (boxes.map DirtyRect.tiled) x y := by
      rintro x y ⟨b, hb, _⟩
      have hm := (hbmem b hb).1
      rw [hys2] at hm
      simp at hm
    rw [hsb, hys2]
    refine ⟨by simp [stripsGo], hsnap, ?_⟩
    intro x y
    constructor
    · rintro ⟨b, hb, _⟩
      simp [stripsGo] at hb
    · intro h
      exact absurd h (hbsnil x y)
  · rw [hys2] at hpw
    have h3init : ∀ x y, coveredIn ([] : List DirtyRect) x y ↔
        (coveredIn (boxes.map DirtyRect.tiled) x y ∧ y < y0) := by
      intro x y
      constructor
      · rintro ⟨b, hb, _⟩
        simp at hb
      · rintro ⟨⟨b, hb, hbp⟩, hyy⟩
        exfalso
        have hm := (hbmem b hb).1
        rw [hys2] at hm
        have := head_min hpw b.min_y hm
        obtain ⟨_, _, hy1, _⟩ := hbp
        omega
    have hbmem' : ∀ b ∈ boxes.map DirtyRect.tiled,
        b.min_y ∈ y0 :: rest ∧ b.max_y ∈ y0 :: rest := by
      intro b hb
      have := hbmem b hb
      rw [hys2] at this
      exact this
    have main := stripsGo_spec (boxes.map DirtyRect.tiled) (y0 :: rest) hpw hwfx
      hbmem' rest y0 [] (fun p hp => hp) (by simp) (by simp) (by simp) h3init
    have hcovfin : ∀ x y, coveredIn (boxes.map DirtyRect.tiled) x y →
        y < (y0 :: rest).getLast (by simp) := by
      rintro x y ⟨b, hb, hbp⟩
      have hmax := (hbmem' b hb).2
      have hle := @last_max (y0 :: rest) (by simp) hpw b.max_y hmax
      obtain ⟨_, _, _, hy2⟩ := hbp
      omega
    rw [hsb, hys2]
    refine ⟨?_, hsnap, ?_⟩
    · rw [List.pairwise_reverse]
      exact main.1.imp fun h => disjointR_symm h
    · intro x y
      have hrev : coveredIn (stripsGo (boxes.map DirtyRect.tiled) []
          (y0 :: rest)).reverse x y ↔
          coveredIn (stripsGo (boxes.map DirtyRect.tiled) [] (y0 :: rest)) x y := by
        unfold coveredIn
        simp [List.mem_reverse]
      rw [hrev, main.2 x y]
      constructor
      · rintro ⟨hc, _⟩
        exact hc
      · intro hc
        exact ⟨hc, hcovfin x y hc⟩

/-- Witness for C3 at a concrete input: two boxes whose tiled forms
overlap (`[0,65)² ↦ [0,128)²` and `[100,129)² ↦ [64,192)²`). -/
theorem set_bboxes_decomposition_witness :
    (setBBoxes [⟨0, 0, 65, 65⟩, ⟨100, 100, 129, 129⟩]).Pairwise disjointR ∧
      (∀ b ∈ [(⟨0, 0, 65, 65⟩ : DirtyRect), ⟨100, 100, 129, 129⟩],
        b.tiled = snapSpec b) ∧
      ∀ x y, coveredIn (setBBoxes [⟨0, 0, 65, 65⟩, ⟨100, 100, 129, 129⟩]) x y ↔
        coveredIn (List.map DirtyRect.tiled
          [⟨0, 0, 65, 65⟩, ⟨100, 100, 129, 129⟩]) x y :=
  set_bboxes_decomposition [⟨0, 0, 65, 65⟩, ⟨100, 100, 129, 129⟩]
    (by decide) (by decide)

/-! ### The intersection query (C4) -/

/-- Overlap of the areas of two rects on both axes, as the claim words
the intersection query's test. -/
def overlap2 (b o : DirtyRect) : Prop :=
  b.min_x < o.max_x ∧ o.min_x < b.max_x ∧ b.min_y < o.max_y ∧ o.min_y < b.max_y

instance (b o : DirtyRect) : Decidable (overlap2 b o) := by
  unfold overlap2; infer_instance

/-- C4 counterexample: the decomposition of `[0,64) × [0,64)` holds
exactly that tile; the probe `[0,64) × [64,128)` overlaps no member of
the decomposition on both axes, yet `intersections` yields a rect,
because `DirtyRect::intersects` tests only the x axis. -/
theorem intersections_counterexample :
    (intersections (setBBoxes [⟨0, 0, 64, 64⟩]) ⟨0, 64, 64, 128⟩).length = 1 ∧
      ∀ b ∈ setBBoxes [⟨0, 0, 64, 64⟩], ¬ overlap2 b ⟨0, 64, 64, 128⟩ := by
  decide

/-- C4 (amended): `intersections` yields exactly the rects of the held
decomposition that overlap the probe on the x axis (the y axis is not
tested), each replaced by its `intersection` with the probe.  A rect
overlapping only in x contributes a y-degenerate (empty) rect, so the
union of the yielded rects still equals the decomposition's union
restricted to the probe. -/
theorem intersections_spec (l : List DirtyRect) (o : DirtyRect) :
    (∀ r, r ∈ intersections l o ↔
      ∃ b ∈ l, (b.min_x < o.max_x ∧ o.min_x < b.max_x) ∧ r = b.intersection o) ∧
    ∀ x y, (∃ r ∈ intersections l o, r.pmem x y) ↔
      ((∃ b ∈ l, b.pmem x y) ∧ o.pmem x y) := by
  constructor
  · intro r
    simp only [intersections, List.mem_map, List.mem_filter,
      DirtyRect.intersects, Bool.and_eq_true, decide_eq_true_eq]
    constructor
    · rintro ⟨b, ⟨hb, h1, h2⟩, rfl⟩
      exact ⟨b, hb, ⟨h1, h2⟩, rfl⟩
    · rintro ⟨b, hb, ⟨h1, h2⟩, rfl⟩
      exact ⟨b, ⟨hb, h1, h2⟩, rfl⟩
  · intro x y
    simp only [intersections, List.mem_map, List.mem_filter,
      DirtyRect.intersects, Bool.and_eq_true, decide_eq_true_eq]
    constructor
    · rintro ⟨r, ⟨b, ⟨hb, _, _⟩, rfl⟩, hr⟩
      simp only [DirtyRect.intersection, DirtyRect.pmem, minx_mk, miny_mk,
        maxx_mk, maxy_mk] at hr
      refine ⟨⟨b, hb, ?_⟩, ?_⟩ <;> (unfold DirtyRect.pmem; omega)
    · rintro ⟨⟨b, hb, hbp⟩, hop⟩
      unfold DirtyRect.pmem at hbp hop
      refine ⟨b.intersection o, ⟨b, ⟨hb, by omega, by omega⟩, rfl⟩, ?_⟩
      simp only [DirtyRect.intersection, DirtyRect.pmem, minx_mk, miny_mk,
        maxx_mk, maxy_mk]
      omega

/-! ### `TiledCachedPrimitive::update_occupied_tiles` (C5) -/

/-- The source's per-tile pixel scan: some pixel of `buffer` (a
`width`-pitched bitmap of 32-bit words, indexed rect-relative) inside
the relative coordinate window `[sx,ex) × [sy,ey)` is non-zero.
Out-of-bounds indexing would panic in the source; the `getD _ 0`
fallback is never exercised by in-bounds windows. -/
def anyNonZero (buffer : List Nat) (width sx ex sy ey : Nat) : Bool :=
  (List.range' sy (ey - sy)).any fun y =>
    (List.range' sx (ex - sx)).any fun x =>
      decide (0 < buffer.getD (x + y * width) 0)

/-- Source `TiledCachedPrimitive::update_occupied_tiles` (src/lib.rs):
the `[tile_x, tile_y]` entries pushed, in source push order.  `rect` is
the entry's rect, `buffer` its bitmap as `u32::from_le_bytes` words in
row-major order with pitch `rect.width()`.  Note the scan window end is
`px_start + TILE_SIZE` (clamped to `max`), exactly as in the source. -/
def updateOccupiedTiles (rect : DirtyRect) (buffer : List Nat)
    (tilesWide tilesTall : Nat) : List (Nat × Nat) :=
  let width := rect.max_x - rect.min_x
  let firstTileX := min (rect.min_x / TILE_SIZE) tilesWide
  let firstTileY := min (rect.min_y / TILE_SIZE) tilesTall
  let lastTileX := min (divCeil64 rect.max_x) tilesWide
  let lastTileY := min (divCeil64 rect.max_y) tilesTall
  (List.range' firstTileY (lastTileY - firstTileY)).flatMap fun tileY =>
    let pxStartY := max (tileY * TILE_SIZE) rect.min_y
    let pxEndY := min (pxStartY + TILE_SIZE) rect.max_y
    (List.range' firstTileX (lastTileX - firstTileX)).filterMap fun tileX =>
      let pxStartX := max (tileX * TILE_SIZE) rect.min_x
      let pxEndX := min (pxStartX + TILE_SIZE) rect.max_x
      if anyNonZero buffer width (pxStartX - rect.min_x) (pxEndX - rect.min_x)
          (pxStartY - rect.min_y) (pxEndY - rect.min_y)
      then some (tileX, tileY) else none

/-- The claim's occupancy test: inside the intersection of the 64×64
tile `[tx·64,(tx+1)·64) × [ty·64,(ty+1)·64)` with the entry's rect there
is a pixel whose 32-bit word is non-zero (window bounds expressed
rect-relative, as the bitmap is). -/
def tileSlabNonZero (rect : DirtyRect) (buffer : List Nat) (tx ty : Nat) : Bool :=
  anyNonZero buffer (rect.max_x - rect.min_x)
    (max (tx * TILE_SIZE) rect.min_x - rect.min_x)
    (min ((tx + 1) * TILE_SIZE) rect.max_x - rect.min_x)
    (max (ty * TILE_SIZE) rect.min_y - rect.min_y)
    (min ((ty + 1) * TILE_SIZE) rect.max_y - rect.min_y)

/-- C5 (code bug): rect `[0,1) × [32,96)` on a 1×2 tile grid, bitmap with
its only non-zero word at relative row 40 (absolute y = 72, inside tile
(0,1)).  The source records tile (0,0) as occupied although tile (0,0)'s
slab (absolute y ∈ [32,64)) holds only zero pixels: for the first,
unaligned tile row the source scans `[min_y, min_y + 64)`, overshooting
the tile boundary. -/
theorem update_occupied_tiles_bug :
    (0, 0) ∈ updateOccupiedTiles ⟨0, 32, 1, 96⟩
      (List.replicate 40 0 ++ [1] ++ List.replicate 23 0) 1 2 ∧
    tileSlabNonZero ⟨0, 32, 1, 96⟩
      (List.replicate 40 0 ++ [1] ++ List.replicate 23 0) 0 0 = false := by
  decide

/-! ### The primitive hash stream (C7) -/

/-- One operation applied to the 32-bit hasher.  `hash.rs` is not among
the provided sources; modelled from the spec (§4.4): `hash` mixes a u32
without position wrapping, `hash_wrap` mixes then rotates, `fnv_wrap`
only rotates. -/
inductive HashOp where
  | mix (v : Nat)
  | mixWrap (v : Nat)
  | rotOnly
deriving DecidableEq, Repr

/-- Modelled from the spec: the `Hash32` state, recorded as the reversed
stream of operations applied so far; `finalize` returns the stream (the
32-bit key is a function of exactly this stream). -/
structure Hash32 where
  trace : List HashOp
deriving DecidableEq, Repr

def Hash32.new_fnv : Hash32 := ⟨[]⟩

def Hash32.hash (h : Hash32) (v : Nat) : Hash32 := ⟨HashOp.mix v :: h.trace⟩

def Hash32.hash_wrap (h : Hash32) (v : Nat) : Hash32 := ⟨HashOp.mixWrap v :: h.trace⟩

def Hash32.fnv_wrap (h : Hash32) : Hash32 := ⟨HashOp.rotOnly :: h.trace⟩

def Hash32.finalize (h : Hash32) : List HashOp := h.trace.reverse

/-- `egui::TextureId`: toolkit-managed or user id, carrying a `u64`. -/
inductive TexId where
  | managed (id : Nat)
  | user (id : Nat)
deriving DecidableEq, Repr

/-- Source `prim_prepare_update` (src/lib.rs): the texture id value
hashed into the key.  `id as u32` truncates mod 2^32 and the user-id
bias addition wraps as in release-mode Rust. -/
def encodeTexId : TexId → Nat
  | .managed id => id % U32
  | .user id => (id % U32 + 9358476) % U32

/-- The per-vertex data hashed into the key: the f32 bit patterns of
pos.x, pos.y, uv.x, uv.y (opaque u32 values here) and the four color
bytes. -/
structure VertexBits where
  posx : Nat
  posy : Nat
  uvx : Nat
  uvy : Nat
  c0 : Nat
  c1 : Nat
  c2 : Nat
  c3 : Nat
deriving DecidableEq, Repr

instance : Inhabited VertexBits := ⟨⟨0, 0, 0, 0, 0, 0, 0, 0⟩⟩

/-- `u32::from_le_bytes(v.color.to_array())`. -/
def colorLe (v : VertexBits) : Nat :=
  v.c0 + 256 * v.c1 + 65536 * v.c2 + 16777216 * v.c3

/-- Source lines 822-848 of src/lib.rs: the hash-key construction of
`prim_prepare_update` over the prepared primitive's cropped size bits,
texture id, index list and vertex list (the source indexes
`vertices[*ind]`, panicking out of bounds; `getD` stands in for the
in-bounds case). -/
def primHashKey (cw ch : Nat) (tex : TexId) (indices : List Nat)
    (vertices : List VertexBits) : List HashOp :=
  let h3 := ((Hash32.new_fnv.hash_wrap cw).hash_wrap ch).hash_wrap (encodeTexId tex)
  let h4 := indices.foldl (fun h ind =>
    let v := vertices.getD ind default
    (((((h.hash v.posx).hash v.posy).hash v.uvx).hash v.uvy).hash
      (colorLe v)).fnv_wrap) h3
  (h4.hash_wrap indices.length).finalize

/-- The operation stream exactly as claim C7 (and spec §4.4) words it:
cropped width and height (`hash_wrap` each), encoded texture id
(`hash_wrap`), then per index the vertex's pos.x, pos.y, uv.x, uv.y and
little-endian color (each `hash`) followed by `fnv_wrap`, then the index
count (`hash_wrap`). -/
def claimedHashStream (cw ch : Nat) (tex : TexId) (indices : List Nat)
    (vertices : List VertexBits) : List HashOp :=
  [HashOp.mixWrap cw, HashOp.mixWrap ch, HashOp.mixWrap (encodeTexId tex)] ++
    (indices.flatMap fun ind =>
      let v := vertices.getD ind default
      [HashOp.mix v.posx, HashOp.mix v.posy, HashOp.mix v.uvx,
        HashOp.mix v.uvy, HashOp.mix (colorLe v), HashOp.rotOnly]) ++
    [HashOp.mixWrap indices.length]

theorem primHash_fold_trace (vertices : List VertexBits) :
    ∀ (indices : List Nat) (h : Hash32),
      (indices.foldl (fun h ind =>
        let v := vertices.getD ind default
        (((((h.hash v.posx).hash v.posy).hash v.uvx).hash v.uvy).hash
          (colorLe v)).fnv_wrap) h).trace =
      (indices.flatMap fun ind =>
        let v := vertices.getD ind default
        [HashOp.mix v.posx, HashOp.mix v.posy, HashOp.mix v.uvx,
          HashOp.mix v.uvy, HashOp.mix (colorLe v), HashOp.rotOnly]).reverse
        ++ h.trace
  | [], h => by simp
  | ind :: t, h => by
    rw [List.foldl_cons, primHash_fold_trace vertices t]
    simp [Hash32.hash, Hash32.fnv_wrap]

/-- C7: the cache key of a prepared primitive is the 32-bit hash of
exactly the claimed operation stream: cropped width and height bits
(`hash_wrap` each), the encoded texture id (raw u32 for a managed id,
`user_id + 9358476` for a user id; `hash_wrap`), then for each index the
vertex's pos.x, pos.y, uv.x, uv.y bits and little-endian color (plain
`hash` each) followed by `fnv_wrap`, then the index count (`hash_wrap`). -/
theorem prim_hash_stream (cw ch : Nat) (tex : TexId) (indices : List Nat)
    (vertices : List VertexBits) :
    primHashKey cw ch tex indices vertices =
      claimedHashStream cw ch tex indices vertices := by
  unfold primHashKey claimedHashStream
  rw [Hash32.finalize, Hash32.hash_wrap]
  rw [primHash_fold_trace vertices indices]
  simp [Hash32.hash_wrap, Hash32.new_fnv]

/-! ### Mesh preparation and triangle orientation (C6)

The `f32` quantities these claims depend on are modelled as `ℚ`.  For
the orientation step this is faithful up to NaN/overflow: in IEEE
arithmetic `orient2d(a,c,b)` is the exact negation of `orient2d(a,b,c)`
(the same two rounded products are subtracted in the opposite order), so
the sign test and the effect of the swap agree with the rational model. -/

structure VertexQ where
  px : ℚ
  py : ℚ
  uvx : ℚ
  uvy : ℚ
  c0 : Nat
  c1 : Nat
  c2 : Nat
  c3 : Nat
deriving DecidableEq, Repr

instance : Inhabited VertexQ := ⟨⟨0, 0, 0, 0, 0, 0, 0, 0⟩⟩

structure MeshQ where
  indices : List Nat
  vertices : List VertexQ
deriving DecidableEq, Repr

/-- `egui::epaint::Primitive`: a mesh, or an unsupported callback. -/
inductive PrimitiveQ where
  | mesh (m : MeshQ)
  | callback

structure RectQ where
  minx : ℚ
  miny : ℚ
  maxx : ℚ
  maxy : ℚ
deriving DecidableEq, Repr

/-- Source `egui_orient2df` (src/render.rs): twice the signed area of
triangle `abc`. -/
def orient2df (a b c : ℚ × ℚ) : ℚ :=
  (b.1 - a.1) * (c.2 - a.2) - (b.2 - a.2) * (c.1 - a.1)

/-- The renderer's configured output field order. -/
inductive FieldOrder where
  | rgba
  | bgra

/-- Source `prim_prepare_px_mesh` vertex loop: scale the position by
pixels-per-point and (modelled from the spec, color.rs not being under
src/) swizzle RGBA↔BGRA, i.e. swap bytes 0 and 2, for Bgra output. -/
def prepVertex (fo : FieldOrder) (ppp : ℚ) (v : VertexQ) : VertexQ :=
  { v with
    px := v.px * ppp
    py := v.py * ppp
    c0 := match fo with | .rgba => v.c0 | .bgra => v.c2
    c2 := match fo with | .rgba => v.c2 | .bgra => v.c0 }

/-- `f32::MAX = (2^24 − 1) · 2^104`, the accumulator seed of the
`mesh_min`/`mesh_max` fold. -/
def FMAX : ℚ := (16777215 : ℚ) * 2 ^ 104

/-- Position of vertex `i` of a vertex list (`vertices[i]`, with a
default that the source's panicking indexing never takes in bounds). -/
def posOf (vs : List VertexQ) (i : Nat) : ℚ × ℚ :=
  ((vs.getD i default).px, (vs.getD i default).py)

/-- Source: the `for i in (0..indices.len()).step_by(3)` loop of
`prim_prepare_px_mesh` that swaps the 2nd and 3rd index of a triple when
`egui_orient2df < 0`.  (The source panics on a trailing partial triple;
the model leaves it unchanged, and the claim theorem assumes a
multiple-of-3 length.) -/
def orientLoop (vs : List VertexQ) : List Nat → List Nat
  | i0 :: i1 :: i2 :: rest =>
    if orient2df (posOf vs i0) (posOf vs i1) (posOf vs i2) < 0 then
      i0 :: i2 :: i1 :: orientLoop vs rest
    else
      i0 :: i1 :: i2 :: orientLoop vs rest
  | l => l

/-- Source `EguiSoftwareRenderInner::prim_prepare_px_mesh`: drop
callbacks and empty meshes, scale the clip rect and vertices by
pixels-per-point, accumulate the mesh bounds, orient all triangles CCW. -/
def primPreparePxMesh (fo : FieldOrder) (splat ppp : ℚ) (clip : RectQ)
    (prim : PrimitiveQ) : Option (RectQ × (ℚ × ℚ) × (ℚ × ℚ) × MeshQ) :=
  match prim with
  | .callback => none
  | .mesh m =>
    if m.vertices.isEmpty || m.indices.isEmpty then none
    else
      let clipPx : RectQ := ⟨clip.minx * ppp, clip.miny * ppp,
        clip.maxx * ppp + splat, clip.maxy * ppp + splat⟩
      let vs := m.vertices.map (prepVertex fo ppp)
      let meshMin := vs.foldl (fun a v => (min a.1 v.px, min a.2 v.py)) (FMAX, FMAX)
      let meshMax := vs.foldl (fun a v => (max a.1 v.px, max a.2 v.py)) (-FMAX, -FMAX)
      some (clipPx, meshMin, meshMax, ⟨orientLoop vs m.indices, vs⟩)

/-- The `k`-th consecutive index triple of an index list. -/
def tripleAt (l : List Nat) (k : Nat) : Nat × Nat × Nat :=
  (l.getD (3 * k) 0, l.getD (3 * k + 1) 0, l.getD (3 * k + 2) 0)

theorem orient2df_swap (a b c : ℚ × ℚ) : orient2df a c b = -orient2df a b c := by
  unfold orient2df
  ring

theorem orientLoop_length (vs : List VertexQ) :
    ∀ l : List Nat, (orientLoop vs l).length = l.length
  | [] => rfl
  | [_] => rfl
  | [_, _] => rfl
  | _ :: _ :: _ :: rest => by
    unfold orientLoop
    split <;> simp [orientLoop_length vs rest]

theorem orientLoop_triple (vs : List VertexQ) :
    ∀ (l : List Nat) (k : Nat), 3 * k + 2 < l.length →
      tripleAt (orientLoop vs l) k =
        if orient2df (posOf vs (tripleAt l k).1) (posOf vs (tripleAt l k).2.1)
            (posOf vs (tripleAt l k).2.2) < 0
        then ((tripleAt l k).1, (tripleAt l k).2.2, (tripleAt l k).2.1)
        else tripleAt l k
  | [], k, hk => by simp at hk
  | [_], k, hk => by simp at hk
  | [_, _], k, hk => by simp at hk
  | i0 :: i1 :: i2 :: rest, k, hk => by
    match k with
    | 0 =>
      have ht : tripleAt (i0 :: i1 :: i2 :: rest) 0 = (i0, i1, i2) := by
        simp [tripleAt]
      rw [ht]
      unfold orientLoop
      by_cases h : orient2df (posOf vs i0) (posOf vs i1) (posOf vs i2) < 0
      · rw [if_pos h, if_pos h]
        simp [tripleAt]
      · rw [if_neg h, if_neg h]
        simp [tripleAt]
    | k + 1 =>
      have hk2 : 3 * k + 2 < rest.length := by
        simp only [List.length_cons] at hk
        omega
      have ih := orientLoop_triple vs rest k hk2
      have key : ∀ (a b c : Nat) (L : List Nat),
          tripleAt (a :: b :: c :: L) (k + 1) = tripleAt L k := by
        intro a b c L
        unfold tripleAt
        have e0 : 3 * (k + 1) = 3 * k + 1 + 1 + 1 := by ring
        have e1 : 3 * (k + 1) + 1 = (3 * k + 1) + 1 + 1 + 1 := by ring
        have e2 : 3 * (k + 1) + 2 = (3 * k + 2) + 1 + 1 + 1 := by ring
        rw [e2, e1, e0]
        simp only [List.getD_cons_succ]
      unfold orientLoop
      split
      · rw [key, ih, key i0 i1 i2 rest]
      · rw [key, ih, key i0 i1 i2 rest]

/-- C6: for every mesh accepted by `prim_prepare_px_mesh` (valid index
triples), the returned mesh's vertices are exactly the scaled/swizzled
input vertices (the orientation pass changes no vertex data), each index
triple has its 2nd and 3rd index swapped exactly when the scaled
triangle's `orient2d` is negative, and every returned triple satisfies
`orient2d ≥ 0`. -/
theorem prim_prepare_orients_ccw (fo : FieldOrder) (splat ppp : ℚ)
    (clip : RectQ) (m : MeshQ) (out : RectQ × (ℚ × ℚ) × (ℚ × ℚ) × MeshQ)
    (hsome : primPreparePxMesh fo splat ppp clip (.mesh m) = some out)
    (hlen : m.indices.length % 3 = 0)
    (hvalid : ∀ i ∈ m.indices, i < m.vertices.length) :
    out.2.2.2.vertices = m.vertices.map (prepVertex fo ppp) ∧
      out.2.2.2.indices.length = m.indices.length ∧
      ∀ k, 3 * k + 2 < m.indices.length →
        (tripleAt out.2.2.2.indices k =
          (let t := tripleAt m.indices k
            let vs := m.vertices.map (prepVertex fo ppp)
            if orient2df (posOf vs t.1) (posOf vs t.2.1) (posOf vs t.2.2) < 0
            then (t.1, t.2.2, t.2.1) else t)) ∧
        0 ≤ orient2df
          (posOf out.2.2.2.vertices (tripleAt out.2.2.2.indices k).1)
          (posOf out.2.2.2.vertices (tripleAt out.2.2.2.indices k).2.1)
          (posOf out.2.2.2.vertices (tripleAt out.2.2.2.indices k).2.2) := by
  unfold primPreparePxMesh at hsome
  split at hsome
  · exact absurd hsome (by simp)
  · rename_i m' hm
    cases hm
    split at hsome
    · exact absurd hsome (by simp)
    · injection hsome with hout
      subst hout
      refine ⟨rfl, orientLoop_length _ _, ?_⟩
      intro k hk
      have htr := orientLoop_triple (m.vertices.map (prepVertex fo ppp))
        m.indices k hk
      refine ⟨htr, ?_⟩
      rw [htr]
      by_cases h : orient2df
          (posOf (m.vertices.map (prepVertex fo ppp)) (tripleAt m.indices k).1)
          (posOf (m.vertices.map (prepVertex fo ppp)) (tripleAt m.indices k).2.1)
          (posOf (m.vertices.map (prepVertex fo ppp)) (tripleAt m.indices k).2.2)
          < 0
      · simp only [h, if_pos]
        rw [orient2df_swap]
        linarith
      · simp only [h, if_neg, not_false_iff]
        exact le_of_not_lt h

def meshLitC6 : MeshQ :=
  ⟨[0, 2, 1], [⟨0, 0, 0, 0, 0, 0, 0, 0⟩, ⟨1, 0, 0, 0, 0, 0, 0, 0⟩,
    ⟨0, 1, 0, 0, 0, 0, 0, 0⟩]⟩

def outLitC6 : RectQ × (ℚ × ℚ) × (ℚ × ℚ) × MeshQ :=
  (⟨0, 0, 21/2, 21/2⟩, (0, 0), (1, 1),
    ⟨[0, 1, 2], [⟨0, 0, 0, 0, 0, 0, 0, 0⟩, ⟨1, 0, 0, 0, 0, 0, 0, 0⟩,
      ⟨0, 1, 0, 0, 0, 0, 0, 0⟩]⟩)

/-- Witness for C6: a single clockwise triangle `[0,2,1]` is rewound to
`[0,1,2]` and its returned orientation is non-negative. -/
theorem prim_prepare_orients_ccw_witness :
    outLitC6.2.2.2.vertices = meshLitC6.vertices.map (prepVertex .rgba 1) ∧
      outLitC6.2.2.2.indices.length = meshLitC6.indices.length ∧
      ∀ k, 3 * k + 2 < meshLitC6.indices.length →
        (tripleAt outLitC6.2.2.2.indices k =
          (let t := tripleAt meshLitC6.indices k
            let vs := meshLitC6.vertices.map (prepVertex .rgba 1)
            if orient2df (posOf vs t.1) (posOf vs t.2.1) (posOf vs t.2.2) < 0
            then (t.1, t.2.2, t.2.1) else t)) ∧
        0 ≤ orient2df
          (posOf outLitC6.2.2.2.vertices (tripleAt outLitC6.2.2.2.indices k).1)
          (posOf outLitC6.2.2.2.vertices (tripleAt outLitC6.2.2.2.indices k).2.1)
          (posOf outLitC6.2.2.2.vertices (tripleAt outLitC6.2.2.2.indices k).2.2) :=
  prim_prepare_orients_ccw .rgba (1/2) 1 ⟨0, 0, 10, 10⟩ meshLitC6 outLitC6
    (by norm_num [primPreparePxMesh, meshLitC6, outLitC6, prepVertex,
      orientLoop, posOf, orient2df, FMAX])
    (by decide) (by decide)

/-! ### The AVX-512 blend kernel (C8)

Per-lane model of src/color_avx512bw.rs, from the Intel SDM semantics of
each intrinsic:
* `_mm512_cvtepu8_epi16` zero-extends byte `j` into 16-bit word `j`;
* `_mm512_shufflelo_epi16` / `_mm512_shufflehi_epi16` with imm 0xFF set
  every word of each 4-word half to that half's last word — together they
  broadcast each pixel's alpha (word 3 of its 4-word group) over the
  group;
* `xor 0x00FF` on a value ≤ 255 computes `255 − a`;
* `_mm512_mullo_epi16` / `_mm512_add_epi16` are per-lane mod 2^16;
* `_mm512_mulhi_epu16` by 0x0101 = 257 is `x·257 >> 16`;
* `_mm256_packus_epi16(lo, hi)` saturates i16 words to unsigned bytes
  and interleaves its operands per 128-bit lane, so with lo = pixels
  0..3 and hi = pixels 4..7, the packed byte order holds pixels
  0,1,4,5,2,3,6,7;
* `_mm256_adds_epu8` is a per-byte saturating add. -/

/-- A 4-byte pixel (channel byte values). -/
structure Pix where
  c0 : Nat
  c1 : Nat
  c2 : Nat
  c3 : Nat
deriving DecidableEq, Repr

instance : Inhabited Pix := ⟨⟨0, 0, 0, 0⟩⟩

/-- Modelled from the spec (§4.1; color_sse41.rs is not under src/):
one channel of the scalar reference blend `egui_blend_u8`:
`t = dst·(255 − src_a) + 128; dst ← saturating_add(src, (t + (t >> 8)) >> 8)`. -/
def blendChan (s d a : Nat) : Nat :=
  min 255 (s + ((d * (255 - a) + 128) + (d * (255 - a) + 128) / 256) / 256)

/-- Modelled from the spec: the scalar reference blend (premultiplied
`(ONE, ONE_MINUS_SRC_ALPHA)`), applied per channel with the source
alpha byte. -/
def egui_blend_u8 (src dst : Pix) : Pix :=
  ⟨blendChan src.c0 dst.c0 src.c3, blendChan src.c1 dst.c1 src.c3,
    blendChan src.c2 dst.c2 src.c3, blendChan src.c3 dst.c3 src.c3⟩

/-- One 16-bit lane of the vector kernel up to the `mulhi`:
`(dst·(255 xor a) mod 2^16 + 0x80) mod 2^16` then `·257 >> 16`. -/
def blendTermLane (d a : Nat) : Nat :=
  (d * Nat.xor 255 a % 65536 + 128) % 65536 * 257 / 65536

/-- `packus` saturation of an i16 lane to an unsigned byte (negative
i16 values, i.e. ≥ 2^15 as unsigned, clamp to 0). -/
def packusSat (x : Nat) : Nat :=
  if 32768 ≤ x then 0 else min 255 x

/-- The blend term of one pixel position before the pack (alpha taken
from the source pixel of the same lane). -/
def blendTermPix (src dst : Pix) : Pix :=
  ⟨packusSat (blendTermLane dst.c0 src.c3), packusSat (blendTermLane dst.c1 src.c3),
    packusSat (blendTermLane dst.c2 src.c3), packusSat (blendTermLane dst.c3 src.c3)⟩

/-- The pixel permutation introduced by `_mm256_packus_epi16`: packed
position `i` holds the blend term of input pixel `packPerm i`. -/
def packPerm : Nat → Nat
  | 2 => 4
  | 3 => 5
  | 4 => 2
  | 5 => 3
  | n => n

/-- `_mm256_adds_epu8`. -/
def addsPix (a b : Pix) : Pix :=
  ⟨min 255 (a.c0 + b.c0), min 255 (a.c1 + b.c1),
    min 255 (a.c2 + b.c2), min 255 (a.c3 + b.c3)⟩

/-- Source `egui_blend_8_u16x4` (src/color_avx512bw.rs): one 8-pixel
vector step, expressed per final store position `i`: the packed blend
term at position `i` comes from lane pixel `packPerm i`, while the
saturating add uses the un-permuted source byte vector. -/
def egui_blend_8_u16x4 (src dst : List Pix) : List Pix :=
  (List.range 8).map fun i =>
    addsPix (src.getD i default)
      (blendTermPix (src.getD (packPerm i) default) (dst.getD (packPerm i) default))

/-- Source `egui_blend_u8_slice` (src/color_avx512bw.rs): the
`while i + 7 < n` vector loop followed by the scalar tail (the source
asserts `src.len() == dst.len()`; the model is exercised on equal
lengths). -/
def egui_blend_u8_slice : List Pix → List Pix → List Pix
  | s, d0 :: d1 :: d2 :: d3 :: d4 :: d5 :: d6 :: d7 :: drest =>
    egui_blend_8_u16x4 (s.take 8) [d0, d1, d2, d3, d4, d5, d6, d7] ++
      egui_blend_u8_slice (s.drop 8) drest
  | s, d => List.zipWith egui_blend_u8 s d

/-- C8 (code bug): with eight zero source pixels (for which the blend is
the identity) and eight pairwise distinct destination pixels, the
vector loop of `egui_blend_u8_slice` stores dst pixel 4's blend term at
position 2 (and 5↦3, 2↦4, 3↦5): `_mm256_packus_epi16` interleaves its
two 256-bit operands per 128-bit lane and the kernel neither permutes
the added source vector nor undoes the permutation before the store, so
its output is not bit-identical to the scalar reference
`dst[i] = blend(src[i], dst[i])` stated in the kernel's own doc comment. -/
theorem avx512_blend_slice_bug :
    egui_blend_u8_slice (List.replicate 8 ⟨0, 0, 0, 0⟩)
        [⟨0, 0, 0, 255⟩, ⟨1, 0, 0, 255⟩, ⟨2, 0, 0, 255⟩, ⟨3, 0, 0, 255⟩,
          ⟨4, 0, 0, 255⟩, ⟨5, 0, 0, 255⟩, ⟨6, 0, 0, 255⟩, ⟨7, 0, 0, 255⟩] ≠
      List.zipWith egui_blend_u8 (List.replicate 8 ⟨0, 0, 0, 0⟩)
        [⟨0, 0, 0, 255⟩, ⟨1, 0, 0, 255⟩, ⟨2, 0, 0, 255⟩, ⟨3, 0, 0, 255⟩,
          ⟨4, 0, 0, 255⟩, ⟨5, 0, 0, 255⟩, ⟨6, 0, 0, 255⟩, ⟨7, 0, 0, 255⟩] ∧
    (egui_blend_u8_slice (List.replicate 8 ⟨0, 0, 0, 0⟩)
        [⟨0, 0, 0, 255⟩, ⟨1, 0, 0, 255⟩, ⟨2, 0, 0, 255⟩, ⟨3, 0, 0, 255⟩,
          ⟨4, 0, 0, 255⟩, ⟨5, 0, 0, 255⟩, ⟨6, 0, 0, 255⟩,
          ⟨7, 0, 0, 255⟩]).getD 2 default = ⟨4, 0, 0, 255⟩ ∧
    (List.zipWith egui_blend_u8 (List.replicate 8 ⟨0, 0, 0, 0⟩)
        [⟨0, 0, 0, 255⟩, ⟨1, 0, 0, 255⟩, ⟨2, 0, 0, 255⟩, ⟨3, 0, 0, 255⟩,
          ⟨4, 0, 0, 255⟩, ⟨5, 0, 0, 255⟩, ⟨6, 0, 0, 255⟩,
          ⟨7, 0, 0, 255⟩]).getD 2 default = ⟨2, 0, 0, 255⟩ := by
  decide

/-! ### Texture store and `set_textures` (C10) -/

/-- A stored texture.  `EguiTexture` (egui_texture.rs) is not under
src/; modelled from the spec (§4.3): dimensions and the ingested,
possibly swizzled pixels (filter options do not affect these claims). -/
structure Texture where
  width : Nat
  height : Nat
  data : List Pix
deriving DecidableEq, Repr

/-- The consumed part of an `epaint::ImageDelta`: image size, pixels,
and the optional patch position. -/
structure ImageDelta where
  sizeX : Nat
  sizeY : Nat
  pixels : List Pix
  pos : Option (Nat × Nat)
deriving DecidableEq, Repr

/-- Modelled from the spec: `swizzle_rgba_bgra` (color.rs is not under
src/) swaps bytes 0 and 2. -/
def swizzle_rgba_bgra (p : Pix) : Pix := ⟨p.c2, p.c1, p.c0, p.c3⟩

/-- The per-pixel ingest conversion selected by the output field order
(egui pixels are RGBA). -/
def applyOrder : FieldOrder → Pix → Pix
  | .rgba, p => p
  | .bgra, p => swizzle_rgba_bgra p

/-- The texture store, keyed by `egui::TextureId`. -/
abbrev TexStore := List (TexId × Texture)

def storeGet (ts : TexStore) (id : TexId) : Option Texture :=
  (ts.find? fun kv => kv.1 = id).map Prod.snd

def storeSet (ts : TexStore) (id : TexId) (t : Texture) : TexStore :=
  if (ts.find? fun kv => kv.1 = id).isSome then
    ts.map fun kv => if kv.1 = id then (kv.1, t) else kv
  else ts ++ [(id, t)]

/-- One store of the patch loop body:
`texture.data[dest_pos] = swizzled pixel` — the source indexing panics
when `dest_pos` is out of bounds, modelled as an error. -/
def patchPixel (fo : FieldOrder) (t : Texture) (p : Pix) (destPos : Nat) :
    Except Unit Texture :=
  if destPos < t.data.length then
    Except.ok { t with data := t.data.set destPos (applyOrder fo p) }
  else Except.error ()

/-- Source: the `for y … for x` patch loop of `set_textures`:
`src_pos = x + y·size.x`, `dest_pos = (x + pos.x) + (y + pos.y)·width`. -/
def patchTexture (fo : FieldOrder) (t : Texture) (d : ImageDelta)
    (pos : Nat × Nat) : Except Unit Texture :=
  (List.range d.sizeY).foldlM (fun t y =>
    (List.range d.sizeX).foldlM (fun t x =>
      patchPixel fo t (d.pixels.getD (x + y * d.sizeX) default)
        ((x + pos.1) + (y + pos.2) * t.width)) t) t

/-- Modelled from the spec (§4.3): `EguiTexture::new` ingests the
pixels, swizzled to the output field order. -/
def newTexture (fo : FieldOrder) (d : ImageDelta) : Texture :=
  ⟨d.sizeX, d.sizeY, d.pixels.map (applyOrder fo)⟩

/-- Source `EguiSoftwareRenderInner::set_textures`: per delta entry,
assert the image's pixel count (`assert_eq!`), then either patch the
texture at the id in place — silently skipping the entry when the id is
absent — or insert a newly created texture.  Errors model panics. -/
def setTexturesM (fo : FieldOrder) : TexStore → List (TexId × ImageDelta) →
    Except Unit TexStore
  | ts, [] => .ok ts
  | ts, (id, d) :: rest =>
    if d.sizeX * d.sizeY ≠ d.pixels.length then .error ()
    else
      match d.pos with
      | some pos =>
        match storeGet ts id with
        | some t =>
          match patchTexture fo t d pos with
          | .ok t2 => setTexturesM fo (storeSet ts id t2) rest
          | .error e => .error e
        | none => setTexturesM fo ts rest
      | none => setTexturesM fo (storeSet ts id (newTexture fo d)) rest

/-- Source `free_textures`: remove every freed id. -/
def freeTextures (ts : TexStore) (free : List TexId) : TexStore :=
  free.foldl (fun ts id => ts.filter fun kv => decide (kv.1 ≠ id)) ts

/-! ### The frame cache protocol (C1, C2, C9)

`prim_prepare_px_mesh`, cropping and hashing are deterministic
f32-valued computations; the protocol theorems are proved for every
such computation, abstracted as `prep : Prim → Option PrepOut`
(`none` = the source's `CacheUpdate::None` early-outs of
`prim_prepare_px_mesh`).  Likewise the mode-specific content
construction (bitmap rasterization resp. mesh retention) is the
abstract `mkContent`, and the composite stage — the only stage that
writes the frame buffer — is the abstract `composite`. -/

/-- Source `struct CacheReuse`: the meta fields shared by both cache
entry kinds. -/
structure CacheReuse where
  z_order : Nat
  rect : DirtyRect
  seen_this_frame : Bool
  rendered_this_frame : Bool
deriving DecidableEq, Repr

/-- A cache entry: reused meta plus mode-specific content. -/
structure Entry (P : Type) where
  meta : CacheReuse
  content : P

/-- The cache map (`HashMap<u32, P>`), modelled as an association list
keyed by the 32-bit hash; insertion order refines the map's arbitrary
iteration order (no theorem below depends on it). -/
abbrev Cache (P : Type) := List (Nat × Entry P)

def containsKey {P : Type} (c : Cache P) (h : Nat) : Bool :=
  c.any fun kv => kv.1 == h

/-- `HashMap::insert`: replace at the key or append. -/
def cacheInsert {P : Type} (c : Cache P) (h : Nat) (e : Entry P) : Cache P :=
  if containsKey c h then c.map fun kv => if kv.1 == h then (h, e) else kv
  else c ++ [(h, e)]

/-- `*cached_primitive.deref_mut() = cache_reuse`: overwrite only the
meta of the entry at the key; the stored content is untouched. -/
def cacheSetMeta {P : Type} (c : Cache P) (h : Nat) (m : CacheReuse) : Cache P :=
  c.map fun kv => if kv.1 == h then (kv.1, ⟨m, kv.2.content⟩) else kv

/-- Source `enum CacheUpdate`. -/
inductive CacheUpdate (P : Type) where
  | reuse (hash : Nat) (m : CacheReuse)
  | new (hash : Nat) (e : Entry P)
  | none

/-- The outcome of the deterministic preparation of one primitive:
its 32-bit hash, screen rect, and cropped pixel dimensions. -/
structure PrepOut where
  hash : Nat
  rect : DirtyRect
  width : Nat
  height : Nat

/-- Source `prim_prepare_update` (src/lib.rs): on a hash hit produce a
`reuse` carrying only fresh meta (never consulting the primitive's
content); otherwise apply the oversize and empty guards and produce a
`new` entry via `mkContent`. -/
def primPrepareUpdate {Prim P : Type} (prep : Prim → Option PrepOut)
    (mkContent : Prim → PrepOut → P) (cache : Cache P) (idx : Nat)
    (prim : Prim) : CacheUpdate P :=
  match prep prim with
  | Option.none => .none
  | some o =>
    if containsKey cache o.hash then .reuse o.hash ⟨idx, o.rect, true, false⟩
    else if 8192 < o.width ∨ 8192 < o.height then .none
    else if o.width = 0 ∨ o.height = 0 then .none
    else .new o.hash ⟨⟨idx, o.rect, true, true⟩, mkContent prim o⟩

/-- Applying one `CacheUpdate` to the map (source: the
`updates.into_iter().for_each` write-back). -/
def applyUpdate {P : Type} (c : Cache P) : CacheUpdate P → Cache P
  | .reuse h m => if containsKey c h then cacheSetMeta c h m else c
  | .new h e => cacheInsert c h e
  | .none => c

/-- Source `render_prims_to_cache`: all updates are computed against
the pre-frame map snapshot (the parallel phase borrows it immutably),
then applied in primitive order. -/
def renderPrimsToCache {Prim P : Type} (prep : Prim → Option PrepOut)
    (mkContent : Prim → PrepOut → P) (cache : Cache P)
    (paintJobs : List Prim) : Cache P :=
  (paintJobs.enum.map fun ip =>
    primPrepareUpdate prep mkContent cache ip.1 ip.2).foldl applyUpdate cache

/-- Source: the `seen_this_frame = false` reset loop. -/
def markUnseen {P : Type} (c : Cache P) : Cache P :=
  c.map fun kv => (kv.1, ⟨{ kv.2.meta with seen_this_frame := false }, kv.2.content⟩)

/-- Source `update_dirty_rect`: union of the rects of entries that were
rendered this frame or not seen this frame. -/
def updateDirtyRect {P : Type} (c : Cache P) : DirtyRect :=
  c.foldl (fun dr kv =>
    if !kv.2.meta.seen_this_frame || kv.2.meta.rendered_this_frame then
      if dr.is_empty then kv.2.meta.rect else dr.union kv.2.meta.rect
    else dr) DirtyRect.new_empty

/-- The renderer state threaded through a frame.  `A` stands for the
mode-specific side tables (`dirty_tiles` resp. `dirty_rects`), updated
by the abstract `updAux` only under the source's non-empty guard. -/
structure RenderState (P A : Type) where
  cachedSize : Nat × Nat
  textures : TexStore
  tilesDim : Nat × Nat
  aux : A
  cache : Cache P

/-- Source `EguiSoftwareRenderInner::prepare_render_cache`, generic
over the caching mode exactly as in the source: the three assertions;
cache clear on full redraw, else the cached-size assertion; seen-flag
reset; tile dimensions; texture ingest; prepare + write-back; dirty
rect; guarded side-table update; eviction of unseen entries; full-rect
override on redraw; texture free.  `Except.error` models a panic. -/
def prepareRenderCache {Prim P A : Type} (fo : FieldOrder)
    (prep : Prim → Option PrepOut) (mkContent : Prim → PrepOut → P)
    (updAux : Cache P → A → A) (st : RenderState P A) (width height : Nat)
    (redrawEverything : Bool) (paintJobs : List Prim)
    (deltaSet : List (TexId × ImageDelta)) (deltaFree : List TexId) (ppp : ℚ) :
    Except Unit (DirtyRect × RenderState P A) :=
  if width = 0 then .error ()
  else if height = 0 then .error ()
  else if ¬(0 < ppp) then .error ()
  else if ¬(redrawEverything = true ∨ st.cachedSize = (width, height)) then .error ()
  else
    let cache0 := if redrawEverything then [] else st.cache
    let cache1 := markUnseen cache0
    let tilesDim := (divCeil64 width, divCeil64 height)
    match setTexturesM fo st.textures deltaSet with
    | .error e => .error e
    | .ok textures1 =>
      let cache2 := renderPrimsToCache prep mkContent cache1 paintJobs
      let dirty := updateDirtyRect cache2
      let aux1 := if dirty.is_empty then st.aux else updAux cache2 st.aux
      let cache3 := cache2.filter fun kv => kv.2.meta.seen_this_frame
      let dirty2 := if redrawEverything then ⟨0, 0, width, height⟩ else dirty
      let textures2 := freeTextures textures1 deltaFree
      .ok (dirty2, ⟨(width, height), textures2, tilesDim, aux1, cache3⟩)

/-- Source `SoftwareRenderCaching`. -/
inductive Caching where
  | blendTiled
  | meshTiled
  | mesh
  | direct
deriving DecidableEq, Repr

/-- Source `EguiSoftwareRender::render`: `Direct` runs `render_direct`
(texture ingest, per-primitive direct draw, texture free — no
validation at all) and reports the full buffer rect; the cached modes
run `prepare_render_cache` and composite into the buffer only when the
dirty rect is non-empty (`render_from_tiledcache` /
`render_from_meshcache`, the only buffer-writing stage, abstracted as
`composite`). -/
def renderModel {Prim P A Buf : Type} (fo : FieldOrder)
    (prep : Prim → Option PrepOut) (mkContent : Prim → PrepOut → P)
    (updAux : Cache P → A → A) (directDraw : Prim → Buf → Buf)
    (composite : Cache P → A → DirtyRect → Buf → Buf) (mode : Caching)
    (st : RenderState P A) (buffer : Buf) (width height : Nat)
    (redrawEverything : Bool) (paintJobs : List Prim)
    (deltaSet : List (TexId × ImageDelta)) (deltaFree : List TexId) (ppp : ℚ) :
    Except Unit (DirtyRect × RenderState P A × Buf) :=
  match mode with
  | .direct =>
    match setTexturesM fo st.textures deltaSet with
    | .error e => .error e
    | .ok textures1 =>
      let buffer1 := paintJobs.foldl (fun b pj => directDraw pj b) buffer
      let textures2 := freeTextures textures1 deltaFree
      .ok (⟨0, 0, width, height⟩, { st with textures := textures2 }, buffer1)
  | _ =>
    match prepareRenderCache fo prep mkContent updAux st width height
      redrawEverything paintJobs deltaSet deltaFree ppp with
    | .error e => .error e
    | .ok (dirty, st1) =>
      let buffer1 :=
        if dirty.is_empty then buffer else composite st1.cache st1.aux dirty buffer
      .ok (dirty, st1, buffer1)

/-! ### Protocol lemmas -/

/-- Key of an update, if any. -/
def updKey {P : Type} : CacheUpdate P → Option Nat
  | .reuse h _ => some h
  | .new h _ => some h
  | .none => Option.none

/-- Every meta written by the update satisfies `Q`. -/
def updMetaOK {P : Type} (Q : CacheReuse → Prop) : CacheUpdate P → Prop
  | .reuse _ m => Q m
  | .new _ e => Q e.meta
  | .none => True

/-- The key is present and every entry at it satisfies `Q`. -/
def keyMeta {P : Type} (Q : CacheReuse → Prop) (c : Cache P) (h : Nat) : Prop :=
  containsKey c h = true ∧ ∀ kv ∈ c, kv.1 = h → Q kv.2.meta

theorem containsKey_iff {P : Type} (c : Cache P) (h : Nat) :
    containsKey c h = true ↔ ∃ kv ∈ c, kv.1 = h := by
  unfold containsKey
  simp

theorem containsKey_setMeta {P : Type} (c : Cache P) (h h2 : Nat) (m : CacheReuse) :
    containsKey (cacheSetMeta c h m) h2 = containsKey c h2 := by
  unfold containsKey cacheSetMeta
  rw [List.any_map]
  apply congrArg
  funext kv
  by_cases hk : kv.1 == h
  · have hk2 : kv.1 = h := by simpa using hk
    simp [Function.comp, hk, hk2]
  · simp [Function.comp, hk]

theorem containsKey_insert_mono {P : Type} (c : Cache P) (h h2 : Nat) (e : Entry P)
    (hc : containsKey c h2 = true) : containsKey (cacheInsert c h e) h2 = true := by
  unfold cacheInsert
  obtain ⟨kv, hkv, hk⟩ := (containsKey_iff c h2).mp hc
  by_cases hh : containsKey c h
  · rw [if_pos hh]
    refine (containsKey_iff _ _).mpr ?_
    by_cases hkh : kv.1 == h
    · refine ⟨(h, e), List.mem_map.mpr ⟨kv, hkv, by simp [hkh]⟩, ?_⟩
      have hkh2 : kv.1 = h := by simpa using hkh
      simp [← hkh2, hk]
    · exact ⟨kv, List.mem_map.mpr ⟨kv, hkv, by simp [hkh]⟩, hk⟩
  · rw [if_neg hh]
    exact (containsKey_iff _ _).mpr ⟨kv, List.mem_append_left _ hkv, hk⟩

/-- A1: `applyUpdate` never removes keys. -/
theorem containsKey_applyUpdate_mono {P : Type} (c : Cache P) (u : CacheUpdate P)
    (h2 : Nat) (hc : containsKey c h2 = true) :
    containsKey (applyUpdate c u) h2 = true := by
  match u with
  | .reuse h m =>
    simp only [applyUpdate]
    by_cases hh : containsKey c h
    · rw [if_pos hh, containsKey_setMeta]
      exact hc
    · rw [if_neg hh]
      exact hc
  | .new h e => exact containsKey_insert_mono c h h2 e hc
  | .none => exact hc

theorem containsKey_foldl_mono {P : Type} (us : List (CacheUpdate P)) :
    ∀ (c : Cache P) (h2 : Nat), containsKey c h2 = true →
      containsKey (us.foldl applyUpdate c) h2 = true := by
  induction us with
  | nil => exact fun c h2 hc => hc
  | cons u rest ih =>
    intro c h2 hc
    exact ih (applyUpdate c u) h2 (containsKey_applyUpdate_mono c u h2 hc)

/-- Membership in `cacheSetMeta`: every entry comes from an entry of the
base cache with the same key and content; the meta is replaced exactly
at the given key. -/
theorem mem_setMeta {P : Type} {c : Cache P} {h : Nat} {m : CacheReuse} {kv}
    (hkv : kv ∈ cacheSetMeta c h m) :
    ∃ kv0 ∈ c, kv.1 = kv0.1 ∧ kv.2.content = kv0.2.content ∧
      ((kv0.1 = h ∧ kv.2.meta = m) ∨ (kv0.1 ≠ h ∧ kv.2.meta = kv0.2.meta)) := by
  unfold cacheSetMeta at hkv
  obtain ⟨kv0, hkv0, hmap⟩ := List.mem_map.mp hkv
  by_cases hk : kv0.1 == h
  · rw [if_pos hk] at hmap
    have hk2 : kv0.1 = h := by simpa using hk
    exact ⟨kv0, hkv0, by simp [← hmap], by simp [← hmap],
      Or.inl ⟨hk2, by simp [← hmap]⟩⟩
  · rw [if_neg hk] at hmap
    have hk2 : ¬ kv0.1 = h := by simpa using hk
    exact ⟨kv0, hkv0, by simp [← hmap], by simp [← hmap],
      Or.inr ⟨hk2, by simp [← hmap]⟩⟩

/-- Membership in `cacheInsert`: an entry either is the inserted one (at
the inserted key) or comes unchanged from the base cache at a different
position. -/
theorem mem_insert {P : Type} {c : Cache P} {h : Nat} {e : Entry P} {kv}
    (hkv : kv ∈ cacheInsert c h e) :
    kv = (h, e) ∨ kv ∈ c := by
  unfold cacheInsert at hkv
  by_cases hh : containsKey c h
  · rw [if_pos hh] at hkv
    obtain ⟨kv0, hkv0, hmap⟩ := List.mem_map.mp hkv
    by_cases hk : kv0.1 == h
    · rw [if_pos hk] at hmap
      exact Or.inl hmap.symm
    · rw [if_neg hk] at hmap
      exact Or.inr (hmap ▸ hkv0)
  · rw [if_neg hh] at hkv
    rcases List.mem_append.mp hkv with hkv | hkv
    · exact Or.inr hkv
    · simp at hkv
      exact Or.inl hkv

/-- A2: updates whose written metas satisfy `Q` preserve `keyMeta Q`. -/
theorem keyMeta_applyUpdate {P : Type} {Q : CacheReuse → Prop} {c : Cache P}
    {u : CacheUpdate P} (hu : updMetaOK Q u) {h2 : Nat}
    (hk : keyMeta Q c h2) : keyMeta Q (applyUpdate c u) h2 := by
  obtain ⟨hc, hall⟩ := hk
  refine ⟨containsKey_applyUpdate_mono c u h2 hc, ?_⟩
  intro kv hkv hkey
  match u with
  | .none => exact hall kv hkv hkey
  | .reuse h m =>
    simp only [applyUpdate] at hkv
    by_cases hh : containsKey c h
    · rw [if_pos hh] at hkv
      obtain ⟨kv0, hkv0, _, _, hcase⟩ := mem_setMeta hkv
      rcases hcase with ⟨_, hm⟩ | ⟨_, hm⟩
      · rw [hm]
        exact hu
      · rw [hm]
        exact hall kv0 hkv0 (by omega)
    · rw [if_neg hh] at hkv
      exact hall kv hkv hkey
  | .new h e =>
    rcases mem_insert hkv with rfl | hkv
    · exact hu
    · exact hall kv hkv hkey

/-- A4: folding `Q`-good updates preserves `keyMeta Q`. -/
theorem keyMeta_foldl {P : Type} {Q : CacheReuse → Prop}
    (us : List (CacheUpdate P)) :
    ∀ (c : Cache P) (h2 : Nat), (∀ u ∈ us, updMetaOK Q u) → keyMeta Q c h2 →
      keyMeta Q (us.foldl applyUpdate c) h2 := by
  induction us with
  | nil => exact fun c h2 _ hk => hk
  | cons u rest ih =>
    intro c h2 hgood hk
    exact ih (applyUpdate c u) h2 (fun v hv => hgood v (List.mem_cons_of_mem _ hv))
      (keyMeta_applyUpdate (hgood u (by simp)) hk)

/-- A3: applying a `reuse` at a present key establishes `keyMeta`. -/
theorem keyMeta_of_reuse {P : Type} {Q : CacheReuse → Prop} {c : Cache P}
    {h : Nat} {m : CacheReuse} (hQ : Q m) (hc : containsKey c h = true) :
    keyMeta Q (applyUpdate c (.reuse h m)) h := by
  simp only [applyUpdate]
  rw [if_pos hc]
  refine ⟨by rw [containsKey_setMeta]; exact hc, ?_⟩
  intro kv hkv hkey
  obtain ⟨kv0, _, hkeq, _, hcase⟩ := mem_setMeta hkv
  rcases hcase with ⟨_, hm⟩ | ⟨hne, _⟩
  · rw [hm]
    exact hQ
  · exact absurd (hkeq ▸ hkey) hne

/-- A3': applying a `new` establishes `keyMeta` at its key. -/
theorem keyMeta_of_new {P : Type} {Q : CacheReuse → Prop} {c : Cache P}
    {h : Nat} {e : Entry P} (hQ : Q e.meta) :
    keyMeta Q (applyUpdate c (.new h e)) h := by
  have hc : containsKey (cacheInsert c h e) h = true := by
    unfold cacheInsert
    by_cases hh : containsKey c h
    · rw [if_pos hh]
      obtain ⟨kv, hkv, hk⟩ := (containsKey_iff c h).mp hh
      exact (containsKey_iff _ _).mpr
        ⟨(h, e), List.mem_map.mpr ⟨kv, hkv, by simp [hk]⟩, rfl⟩
    · rw [if_neg hh]
      exact (containsKey_iff _ _).mpr ⟨(h, e), by simp, rfl⟩
  refine ⟨hc, ?_⟩
  intro kv hkv hkey
  simp only [applyUpdate] at hkv
  unfold cacheInsert at hkv
  by_cases hh : containsKey c h
  · rw [if_pos hh] at hkv
    obtain ⟨kv0, _, hmap⟩ := List.mem_map.mp hkv
    by_cases hk : kv0.1 == h
    · rw [if_pos hk] at hmap
      rw [← hmap]
      exact hQ
    · rw [if_neg hk] at hmap
      have : ¬ kv0.1 = h := by simpa using hk
      rw [← hmap] at hkey
      exact absurd hkey this
  · rw [if_neg hh] at hkv
    rcases List.mem_append.mp hkv with hkv | hkv
    · exfalso
      have : containsKey c h = true := (containsKey_iff _ _).mpr ⟨kv, hkv, hkey⟩
      exact absurd this (by simpa using hh)
    · simp at hkv
      rw [hkv]
      exact hQ

/-- Hitting lemma: a `new` update at key `h` somewhere in a `Q`-good
update list establishes `keyMeta Q` at `h` after the fold. -/
theorem keyMeta_hit_new {P : Type} {Q : CacheReuse → Prop}
    (us : List (CacheUpdate P)) :
    ∀ (c : Cache P) (h : Nat) (e : Entry P), (∀ u ∈ us, updMetaOK Q u) →
      CacheUpdate.new h e ∈ us → Q e.meta →
      keyMeta Q (us.foldl applyUpdate c) h := by
  induction us with
  | nil => intro c h e _ hmem; simp at hmem
  | cons u rest ih =>
    intro c h e hgood hmem hQ
    rcases List.mem_cons.mp hmem with rfl | hmem
    · exact keyMeta_foldl rest (applyUpdate c (.new h e)) h
        (fun v hv => hgood v (List.mem_cons_of_mem _ hv)) (keyMeta_of_new hQ)
    · exact ih (applyUpdate c u) h e
        (fun v hv => hgood v (List.mem_cons_of_mem _ hv)) hmem hQ

/-- Hitting lemma: a `reuse` update at an initially present key `h` in a
`Q`-good update list establishes `keyMeta Q` at `h` after the fold. -/
theorem keyMeta_hit_reuse {P : Type} {Q : CacheReuse → Prop}
    (us : List (CacheUpdate P)) :
    ∀ (c : Cache P) (h : Nat) (m : CacheReuse), (∀ u ∈ us, updMetaOK Q u) →
      CacheUpdate.reuse h m ∈ us → Q m → containsKey c h = true →
      keyMeta Q (us.foldl applyUpdate c) h := by
  induction us with
  | nil => intro c h m _ hmem; simp at hmem
  | cons u rest ih =>
    intro c h m hgood hmem hQ hc
    rcases List.mem_cons.mp hmem with rfl | hmem
    · exact keyMeta_foldl rest (applyUpdate c (.reuse h m)) h
        (fun v hv => hgood v (List.mem_cons_of_mem _ hv)) (keyMeta_of_reuse hQ hc)
    · exact ih (applyUpdate c u) h m
        (fun v hv => hgood v (List.mem_cons_of_mem _ hv)) hmem hQ
        (containsKey_applyUpdate_mono c u h hc)

/-- Origin lemma: folding updates whose keys all satisfy `K` onto a
cache with no seen entries yields seen entries only at `K` keys. -/
theorem seen_origin {P : Type} {K : Nat → Prop} (us : List (CacheUpdate P)) :
    ∀ c : Cache P, (∀ u ∈ us, ∀ h, updKey u = some h → K h) →
      (∀ kv ∈ c, kv.2.meta.seen_this_frame = true → K kv.1) →
      ∀ kv ∈ us.foldl applyUpdate c, kv.2.meta.seen_this_frame = true → K kv.1 := by
  induction us with
  | nil => exact fun c _ hin => hin
  | cons u rest ih =>
    intro c hkeys hin
    refine ih (applyUpdate c u) (fun v hv => hkeys v (List.mem_cons_of_mem _ hv)) ?_
    intro kv hkv hseen
    match u with
    | .none => exact hin kv hkv hseen
    | .reuse h m =>
      have hK : K h := hkeys (.reuse h m) (by simp) h rfl
      simp only [applyUpdate] at hkv
      by_cases hh : containsKey c h
      · rw [if_pos hh] at hkv
        obtain ⟨kv0, hkv0, hkeq, _, hcase⟩ := mem_setMeta hkv
        rcases hcase with ⟨hk0, _⟩ | ⟨_, hm⟩
        · rw [hkeq, hk0]
          exact hK
        · rw [hm] at hseen
          rw [hkeq]
          exact hin kv0 hkv0 hseen
      · rw [if_neg hh] at hkv
        exact hin kv hkv hseen
    | .new h e =>
      have hK : K h := hkeys (.new h e) (by simp) h rfl
      rcases mem_insert hkv with rfl | hkv
      · exact hK
      · exact hin kv hkv hseen

/-- An update that creates no entry. -/
def notNew {P : Type} : CacheUpdate P → Prop
  | .new _ _ => False
  | _ => True

/-- Folding only non-`new` updates adds no keys. -/
theorem keys_sub_noNew {P : Type} (us : List (CacheUpdate P)) :
    ∀ c : Cache P, (∀ u ∈ us, notNew u) →
      ∀ kv ∈ us.foldl applyUpdate c, containsKey c kv.1 = true := by
  induction us with
  | nil =>
    intro c _ kv hkv
    exact (containsKey_iff _ _).mpr ⟨kv, hkv, rfl⟩
  | cons u rest ih =>
    intro c hnn kv hkv
    have step := ih (applyUpdate c u)
      (fun v hv => hnn v (List.mem_cons_of_mem _ hv)) kv hkv
    match u with
    | .none => exact step
    | .reuse h m =>
      simp only [applyUpdate] at step
      by_cases hh : containsKey c h
      · rw [if_pos hh, containsKey_setMeta] at step
        exact step
      · rw [if_neg hh] at step
        exact step
    | .new h e => exact (hnn (.new h e) (by simp)).elim

/-- If every entry is seen and un-rendered, `update_dirty_rect` yields
the empty rect. -/
theorem updateDirtyRect_empty {P : Type} (c : Cache P)
    (hall : ∀ kv ∈ c, kv.2.meta.seen_this_frame = true ∧
      kv.2.meta.rendered_this_frame = false) :
    updateDirtyRect c = DirtyRect.new_empty := by
  unfold updateDirtyRect
  have main : ∀ (l : Cache P) (dr : DirtyRect),
      (∀ kv ∈ l, kv.2.meta.seen_this_frame = true ∧
        kv.2.meta.rendered_this_frame = false) →
      (l.foldl (fun dr kv =>
        if !kv.2.meta.seen_this_frame || kv.2.meta.rendered_this_frame then
          if dr.is_empty then kv.2.meta.rect else dr.union kv.2.meta.rect
        else dr) dr) = dr := by
    intro l
    induction l with
    | nil => intro dr _; rfl
    | cons kv rest ih =>
      intro dr hl
      rw [List.foldl_cons]
      obtain ⟨hs, hr⟩ := hl kv (by simp)
      rw [show (if !kv.2.meta.seen_this_frame || kv.2.meta.rendered_this_frame then
        if dr.is_empty then kv.2.meta.rect else dr.union kv.2.meta.rect
        else dr) = dr by rw [hs, hr]; rfl]
      exact ih dr (fun v hv => hl v (List.mem_cons_of_mem _ hv))
  exact main c DirtyRect.new_empty hall

theorem containsKey_markUnseen {P : Type} (c : Cache P) (h : Nat) :
    containsKey (markUnseen c) h = containsKey c h := by
  unfold containsKey markUnseen
  rw [List.any_map]
  rfl

theorem mem_markUnseen {P : Type} {c : Cache P} {kv} (hkv : kv ∈ markUnseen c) :
    kv.2.meta.seen_this_frame = false ∧ ∃ kv0 ∈ c, kv.1 = kv0.1 := by
  unfold markUnseen at hkv
  obtain ⟨kv0, hkv0, hmap⟩ := List.mem_map.mp hkv
  exact ⟨by rw [← hmap], kv0, hkv0, by rw [← hmap]⟩

theorem containsKey_filter_seen {P : Type} {c : Cache P} {h : Nat}
    (hk : keyMeta (fun m => m.seen_this_frame = true) c h) :
    containsKey (c.filter fun kv => kv.2.meta.seen_this_frame) h = true := by
  obtain ⟨hc, hall⟩ := hk
  obtain ⟨kv, hkv, hkey⟩ := (containsKey_iff _ _).mp hc
  exact (containsKey_iff _ _).mpr
    ⟨kv, List.mem_filter.mpr ⟨hkv, by simp [hall kv hkv hkey]⟩, hkey⟩

/-! ### Shape of `prim_prepare_update`'s decisions -/

theorem primPrepareUpdate_hit {Prim P : Type} (prep : Prim → Option PrepOut)
    (mk : Prim → PrepOut → P) (cache : Cache P) (idx : Nat) (prim : Prim)
    (o : PrepOut) (ho : prep prim = some o)
    (hc : containsKey cache o.hash = true) :
    primPrepareUpdate prep mk cache idx prim =
      .reuse o.hash ⟨idx, o.rect, true, false⟩ := by
  unfold primPrepareUpdate
  rw [ho]
  simp [hc]

theorem primPrepareUpdate_miss {Prim P : Type} (prep : Prim → Option PrepOut)
    (mk : Prim → PrepOut → P) (cache : Cache P) (idx : Nat) (prim : Prim)
    (o : PrepOut) (ho : prep prim = some o)
    (hc : containsKey cache o.hash = false) :
    primPrepareUpdate prep mk cache idx prim = .none ∨
      primPrepareUpdate prep mk cache idx prim =
        .new o.hash ⟨⟨idx, o.rect, true, true⟩, mk prim o⟩ := by
  unfold primPrepareUpdate
  rw [ho]
  simp only
  rw [if_neg (by simp [hc])]
  by_cases hg1 : 8192 < o.width ∨ 8192 < o.height
  · rw [if_pos hg1]
    exact Or.inl rfl
  · rw [if_neg hg1]
    by_cases hg2 : o.width = 0 ∨ o.height = 0
    · rw [if_pos hg2]
      exact Or.inl rfl
    · rw [if_neg hg2]
      exact Or.inr rfl

/-- The oversize/empty guards depend only on the prepared output, so a
missed-and-dropped primitive is dropped again on any later miss. -/
theorem primPrepareUpdate_none_stable {Prim P : Type} (prep : Prim → Option PrepOut)
    (mk : Prim → PrepOut → P) (c1 c2 : Cache P) (idx1 idx2 : Nat) (prim : Prim)
    (o : PrepOut) (ho : prep prim = some o)
    (hc1 : containsKey c1 o.hash = false) (hc2 : containsKey c2 o.hash = false)
    (hn : primPrepareUpdate prep mk c1 idx1 prim = .none) :
    primPrepareUpdate prep mk c2 idx2 prim = .none := by
  unfold primPrepareUpdate at hn ⊢
  rw [ho] at hn ⊢
  simp only at hn ⊢
  rw [if_neg (by simp [hc1])] at hn
  rw [if_neg (by simp [hc2])]
  by_cases hg1 : 8192 < o.width ∨ 8192 < o.height
  · rw [if_pos hg1]
  · rw [if_neg hg1] at hn ⊢
    by_cases hg2 : o.width = 0 ∨ o.height = 0
    · rw [if_pos hg2]
    · rw [if_neg hg2] at hn
      exact absurd hn (by simp)

theorem primPrepareUpdate_metaOK {Prim P : Type} (prep : Prim → Option PrepOut)
    (mk : Prim → PrepOut → P) (cache : Cache P) (idx : Nat) (prim : Prim) :
    updMetaOK (fun m => m.seen_this_frame = true)
      (primPrepareUpdate prep mk cache idx prim) := by
  unfold primPrepareUpdate
  cases hp : prep prim with
  | none => trivial
  | some o =>
    simp only
    by_cases hc : containsKey cache o.hash
    · rw [if_pos hc]
      trivial
    · rw [if_neg hc]
      by_cases hg1 : 8192 < o.width ∨ 8192 < o.height
      · rw [if_pos hg1]
        trivial
      · rw [if_neg hg1]
        by_cases hg2 : o.width = 0 ∨ o.height = 0
        · rw [if_pos hg2]
          trivial
        · rw [if_neg hg2]
          trivial

theorem primPrepareUpdate_key {Prim P : Type} (prep : Prim → Option PrepOut)
    (mk : Prim → PrepOut → P) (cache : Cache P) (idx : Nat) (prim : Prim)
    (h : Nat) (hk : updKey (primPrepareUpdate prep mk cache idx prim) = some h) :
    ∃ o, prep prim = some o ∧ o.hash = h := by
  unfold primPrepareUpdate at hk
  cases hp : prep prim with
  | none =>
    rw [hp] at hk
    exact absurd hk (by simp [updKey])
  | some o =>
    rw [hp] at hk
    refine ⟨o, rfl, ?_⟩
    simp only at hk
    by_cases hc : containsKey cache o.hash
    · rw [if_pos hc] at hk
      simp [updKey] at hk
      omega
    · rw [if_neg hc] at hk
      by_cases hg1 : 8192 < o.width ∨ 8192 < o.height
      · rw [if_pos hg1] at hk
        exact absurd hk (by simp [updKey])
      · rw [if_neg hg1] at hk
        by_cases hg2 : o.width = 0 ∨ o.height = 0
        · rw [if_pos hg2] at hk
          exact absurd hk (by simp [updKey])
        · rw [if_neg hg2] at hk
          simp [updKey] at hk
          omega

/-- Core of C1: replaying the same primitive list against the cache the
previous frame left behind (all entries retained because seen) produces
a cache in which every entry is seen and un-rendered. -/
theorem replay_core {Prim P : Type} (prep : Prim → Option PrepOut)
    (mk : Prim → PrepOut → P) (jobs : List Prim)
    (M cache2 cache3 M2 cache2' : Cache P)
    (us1 us2 : List (CacheUpdate P))
    (hMu : ∀ kv ∈ M, kv.2.meta.seen_this_frame = false)
    (hus1 : us1 = jobs.enum.map fun ip => primPrepareUpdate prep mk M ip.1 ip.2)
    (hc2 : cache2 = us1.foldl applyUpdate M)
    (hc3 : cache3 = cache2.filter fun kv => kv.2.meta.seen_this_frame)
    (hM2 : M2 = markUnseen cache3)
    (hus2 : us2 = jobs.enum.map fun ip => primPrepareUpdate prep mk M2 ip.1 ip.2)
    (hc2' : cache2' = us2.foldl applyUpdate M2) :
    ∀ kv ∈ cache2', kv.2.meta.seen_this_frame = true ∧
      kv.2.meta.rendered_this_frame = false := by
  have hgood1 : ∀ u ∈ us1, updMetaOK (fun m => m.seen_this_frame = true) u := by
    intro u hu
    rw [hus1] at hu
    obtain ⟨ip, _, rfl⟩ := List.mem_map.mp hu
    exact primPrepareUpdate_metaOK prep mk M ip.1 ip.2
  have hA : ∀ ip ∈ jobs.enum, ∀ o, prep ip.2 = some o →
      containsKey cache3 o.hash = true ∨
      (primPrepareUpdate prep mk M ip.1 ip.2 = .none ∧
        containsKey M o.hash = false) := by
    intro ip hip o ho
    by_cases hcM : containsKey M o.hash
    · left
      have hu1 : CacheUpdate.reuse o.hash ⟨ip.1, o.rect, true, false⟩ ∈ us1 := by
        rw [hus1]
        exact List.mem_map.mpr ⟨ip, hip,
          primPrepareUpdate_hit prep mk M ip.1 ip.2 o ho hcM⟩
      have hkm := keyMeta_hit_reuse us1 M o.hash ⟨ip.1, o.rect, true, false⟩
        hgood1 hu1 rfl hcM
      rw [← hc2] at hkm
      rw [hc3]
      exact containsKey_filter_seen hkm
    · have hcMf : containsKey M o.hash = false := by simpa using hcM
      rcases primPrepareUpdate_miss prep mk M ip.1 ip.2 o ho hcMf with hn | hnew
      · exact Or.inr ⟨hn, hcMf⟩
      · left
        have hu1 : CacheUpdate.new o.hash ⟨⟨ip.1, o.rect, true, true⟩,
            mk ip.2 o⟩ ∈ us1 := by
          rw [hus1]
          exact List.mem_map.mpr ⟨ip, hip, hnew⟩
        have hkm := keyMeta_hit_new us1 M o.hash _ hgood1 hu1 rfl
        rw [← hc2] at hkm
        rw [hc3]
        exact containsKey_filter_seen hkm
  have hB : ∀ u ∈ us2, u = .none ∨
      ∃ h i rect, u = .reuse h ⟨i, rect, true, false⟩ := by
    intro u hu
    rw [hus2] at hu
    obtain ⟨ip, hip, rfl⟩ := List.mem_map.mp hu
    cases ho : prep ip.2 with
    | none =>
      left
      unfold primPrepareUpdate
      rw [ho]
    | some o =>
      by_cases hcM2 : containsKey M2 o.hash
      · exact Or.inr ⟨o.hash, ip.1, o.rect,
          primPrepareUpdate_hit prep mk M2 ip.1 ip.2 o ho hcM2⟩
      · left
        have hcM2f : containsKey M2 o.hash = false := by simpa using hcM2
        have hc3f : containsKey cache3 o.hash = false := by
          rw [hM2, containsKey_markUnseen] at hcM2f
          exact hcM2f
        rcases hA ip hip o ho with hcon | ⟨hn, hcMf⟩
        · rw [hc3f] at hcon
          cases hcon
        · exact primPrepareUpdate_none_stable prep mk M M2 ip.1 ip.1 ip.2 o ho
            hcMf hcM2f hn
  have hgood2 : ∀ u ∈ us2, updMetaOK (fun m => m.seen_this_frame = true ∧
      m.rendered_this_frame = false) u := by
    intro u hu
    rcases hB u hu with rfl | ⟨h, i, rect, rfl⟩
    · trivial
    · exact ⟨rfl, rfl⟩
  have hnn2 : ∀ u ∈ us2, notNew u := by
    intro u hu
    rcases hB u hu with rfl | ⟨h, i, rect, rfl⟩ <;> trivial
  have hK1 : ∀ u ∈ us1, ∀ h, updKey u = some h →
      ∃ ip ∈ jobs.enum, ∃ o, prep ip.2 = some o ∧ o.hash = h := by
    intro u hu h hk
    rw [hus1] at hu
    obtain ⟨ip, hip, rfl⟩ := List.mem_map.mp hu
    exact ⟨ip, hip, primPrepareUpdate_key prep mk M ip.1 ip.2 h hk⟩
  have hC : ∀ kv2 : Nat × Entry P, kv2 ∈ M2 → ∃ i rect,
      CacheUpdate.reuse kv2.1 ⟨i, rect, true, false⟩ ∈ us2 := by
    intro kv2 hkv2
    have hkv2' := hkv2
    rw [hM2] at hkv2'
    obtain ⟨_, kv3, hkv3, hkey⟩ := mem_markUnseen hkv2'
    have hkv3' := hkv3
    rw [hc3] at hkv3'
    obtain ⟨hkv3mem, hseen⟩ := List.mem_filter.mp hkv3'
    rw [hc2] at hkv3mem
    have horig := seen_origin us1 M hK1
      (fun kv h hs => absurd hs (by simp [hMu kv h])) kv3 hkv3mem hseen
    obtain ⟨ip, hip, o, ho, hhash⟩ := horig
    have hcM2 : containsKey M2 kv2.1 = true :=
      (containsKey_iff _ _).mpr ⟨kv2, hkv2, rfl⟩
    have hoh : o.hash = kv2.1 := by rw [hhash, ← hkey]
    refine ⟨ip.1, o.rect, ?_⟩
    rw [hus2]
    refine List.mem_map.mpr ⟨ip, hip, ?_⟩
    rw [← hoh]
    exact primPrepareUpdate_hit prep mk M2 ip.1 ip.2 o ho (by rw [hoh]; exact hcM2)
  intro kv hkv
  rw [hc2'] at hkv
  have hcM2 : containsKey M2 kv.1 = true := keys_sub_noNew us2 M2 hnn2 kv hkv
  obtain ⟨kv2, hkv2, hkey2⟩ := (containsKey_iff _ _).mp hcM2
  obtain ⟨i, rect, hu2⟩ := hC kv2 hkv2
  have hkm := keyMeta_hit_reuse us2 M2 kv2.1 ⟨i, rect, true, false⟩ hgood2 hu2
    ⟨rfl, rfl⟩ ((containsKey_iff _ _).mpr ⟨kv2, hkv2, rfl⟩)
  exact hkm.2 kv hkv hkey2.symm

/-- Equation lemma: when the four validations pass and the texture
ingest succeeds, `prepare_render_cache` returns exactly the source's
frame pipeline outputs. -/
theorem prepareRenderCache_ok_eq {Prim P A : Type} (fo : FieldOrder)
    (prep : Prim → Option PrepOut) (mk : Prim → PrepOut → P)
    (updAux : Cache P → A → A) (st : RenderState P A) (w h : Nat)
    (jobs : List Prim) (ds : List (TexId × ImageDelta)) (df : List TexId)
    (ppp : ℚ) (t1 : TexStore)
    (hw : w ≠ 0) (hh : h ≠ 0) (hp : 0 < ppp) (hsz : st.cachedSize = (w, h))
    (hst : setTexturesM fo st.textures ds = .ok t1) :
    prepareRenderCache fo prep mk updAux st w h false jobs ds df ppp =
      .ok (updateDirtyRect (renderPrimsToCache prep mk (markUnseen st.cache) jobs),
        ⟨(w, h), freeTextures t1 df, (divCeil64 w, divCeil64 h),
          if (updateDirtyRect (renderPrimsToCache prep mk
              (markUnseen st.cache) jobs)).is_empty
            then st.aux
            else updAux (renderPrimsToCache prep mk (markUnseen st.cache) jobs)
              st.aux,
          (renderPrimsToCache prep mk (markUnseen st.cache) jobs).filter
            fun kv => kv.2.meta.seen_this_frame⟩) := by
  unfold prepareRenderCache
  rw [if_neg hw, if_neg hh, if_neg (not_not.mpr hp), if_neg (by simp [hsz]), hst]
  rfl

/-- Inversion: a successful non-redraw `prepare_render_cache` call
implies the validations held and pins down the returned cache and
cached size. -/
theorem prepareRenderCache_ok_inv {Prim P A : Type} (fo : FieldOrder)
    (prep : Prim → Option PrepOut) (mk : Prim → PrepOut → P)
    (updAux : Cache P → A → A) (st : RenderState P A) (w h : Nat)
    (jobs : List Prim) (ds : List (TexId × ImageDelta)) (df : List TexId)
    (ppp : ℚ) (d : DirtyRect) (st1 : RenderState P A)
    (hok : prepareRenderCache fo prep mk updAux st w h false jobs ds df ppp =
      .ok (d, st1)) :
    w ≠ 0 ∧ h ≠ 0 ∧ 0 < ppp ∧ st1.cachedSize = (w, h) ∧
      st1.cache = (renderPrimsToCache prep mk (markUnseen st.cache) jobs).filter
        fun kv => kv.2.meta.seen_this_frame := by
  by_cases hw : w = 0
  · unfold prepareRenderCache at hok
    rw [if_pos hw] at hok
    exact Except.noConfusion hok
  by_cases hh : h = 0
  · unfold prepareRenderCache at hok
    rw [if_neg hw, if_pos hh] at hok
    exact Except.noConfusion hok
  by_cases hp : 0 < ppp
  case neg =>
    unfold prepareRenderCache at hok
    rw [if_neg hw, if_neg hh, if_pos hp] at hok
    exact Except.noConfusion hok
  by_cases hsz : st.cachedSize = (w, h)
  case neg =>
    unfold prepareRenderCache at hok
    rw [if_neg hw, if_neg hh, if_neg (not_not.mpr hp),
      if_pos (by simp [hsz])] at hok
    exact Except.noConfusion hok
  cases hst : setTexturesM fo st.textures ds with
  | error e =>
    unfold prepareRenderCache at hok
    rw [if_neg hw, if_neg hh, if_neg (not_not.mpr hp),
      if_neg (by simp [hsz]), hst] at hok
    exact Except.noConfusion hok
  | ok t1 =>
    rw [prepareRenderCache_ok_eq fo prep mk updAux st w h jobs ds df ppp t1
      hw hh hp hsz hst] at hok
    simp only [Except.ok.injEq, Prod.mk.injEq] at hok
    obtain ⟨hd, hst1⟩ := hok
    subst hst1
    exact ⟨hw, hh, hp, rfl, rfl⟩

/-- After a successful non-redraw frame, replaying the same primitive
list with an empty texture delta succeeds with an empty dirty rect. -/
theorem second_frame_clean {Prim P A : Type} (fo : FieldOrder)
    (prep : Prim → Option PrepOut) (mk : Prim → PrepOut → P)
    (updAux : Cache P → A → A) (st : RenderState P A) (w h : Nat)
    (jobs : List Prim) (ds : List (TexId × ImageDelta)) (df : List TexId)
    (ppp : ℚ) (d : DirtyRect) (st1 : RenderState P A)
    (hok : prepareRenderCache fo prep mk updAux st w h false jobs ds df ppp =
      .ok (d, st1)) :
    prepareRenderCache fo prep mk updAux st1 w h false jobs [] [] ppp =
      .ok (DirtyRect.new_empty,
        ⟨(w, h), freeTextures st1.textures [], (divCeil64 w, divCeil64 h),
          st1.aux,
          (renderPrimsToCache prep mk (markUnseen st1.cache) jobs).filter
            fun kv => kv.2.meta.seen_this_frame⟩) := by
  obtain ⟨hw, hh, hp, hcs, hcache⟩ :=
    prepareRenderCache_ok_inv fo prep mk updAux st w h jobs ds df ppp d st1 hok
  have hclean := replay_core prep mk jobs (markUnseen st.cache)
    (renderPrimsToCache prep mk (markUnseen st.cache) jobs) st1.cache
    (markUnseen st1.cache)
    (renderPrimsToCache prep mk (markUnseen st1.cache) jobs)
    (jobs.enum.map fun ip : Nat × Prim =>
      primPrepareUpdate prep mk (markUnseen st.cache) ip.1 ip.2)
    (jobs.enum.map fun ip : Nat × Prim =>
      primPrepareUpdate prep mk (markUnseen st1.cache) ip.1 ip.2)
    (fun kv hkv => (mem_markUnseen hkv).1) rfl rfl hcache rfl rfl rfl
  have hdirty := updateDirtyRect_empty _ hclean
  rw [prepareRenderCache_ok_eq fo prep mk updAux st1 w h jobs [] [] ppp
    st1.textures hw hh hp hcs rfl, hdirty]
  rfl

/-- **C1**: in every cached mode, if a `render` call with
`full_redraw = false` succeeds, then a second call with the same buffer
size, the identical primitive list and an empty textures delta returns
an empty dirty rect and leaves the buffer it was given unchanged. -/
theorem render_cached_idempotent {Prim P A Buf : Type} (fo : FieldOrder)
    (prep : Prim → Option PrepOut) (mk : Prim → PrepOut → P)
    (updAux : Cache P → A → A) (directDraw : Prim → Buf → Buf)
    (composite : Cache P → A → DirtyRect → Buf → Buf) (mode : Caching)
    (st : RenderState P A) (buf1 buf2 : Buf) (w h : Nat) (jobs : List Prim)
    (ds : List (TexId × ImageDelta)) (df : List TexId) (ppp : ℚ)
    (d1 : DirtyRect) (st1 : RenderState P A) (out1 : Buf)
    (hmode : mode ≠ .direct)
    (h1 : renderModel fo prep mk updAux directDraw composite mode st buf1
      w h false jobs ds df ppp = .ok (d1, st1, out1)) :
    ∃ st2, renderModel fo prep mk updAux directDraw composite mode st1 buf2
      w h false jobs [] [] ppp = .ok (DirtyRect.new_empty, st2, buf2) := by
  cases mode
  case direct => exact absurd rfl hmode
  all_goals (
    simp only [renderModel] at h1 ⊢
    cases hpr : prepareRenderCache fo prep mk updAux st w h false jobs ds df ppp with
    | error e =>
      rw [hpr] at h1
      exact Except.noConfusion h1
    | ok pr =>
      obtain ⟨d1', st1'⟩ := pr
      rw [hpr] at h1
      simp only [Except.ok.injEq, Prod.mk.injEq] at h1
      obtain ⟨hd1, hst1, hout⟩ := h1
      rw [hst1] at hpr
      refine ⟨⟨(w, h), freeTextures st1.textures [], (divCeil64 w, divCeil64 h),
        st1.aux,
        (renderPrimsToCache prep mk (markUnseen st1.cache) jobs).filter
          fun kv => kv.2.meta.seen_this_frame⟩, ?_⟩
      rw [second_frame_clean fo prep mk updAux st w h jobs ds df ppp d1' st1 hpr]
      rfl)

/-- Any failed validation makes `prepare_render_cache` panic
(modelled as `Except.error`). -/
theorem prepareRenderCache_bad {Prim P A : Type} (fo : FieldOrder)
    (prep : Prim → Option PrepOut) (mk : Prim → PrepOut → P)
    (updAux : Cache P → A → A) (st : RenderState P A) (w h : Nat)
    (redraw : Bool) (jobs : List Prim) (ds : List (TexId × ImageDelta))
    (df : List TexId) (ppp : ℚ)
    (hbad : w = 0 ∨ h = 0 ∨ ¬0 < ppp ∨
      (redraw = false ∧ st.cachedSize ≠ (w, h))) :
    prepareRenderCache fo prep mk updAux st w h redraw jobs ds df ppp =
      .error () := by
  unfold prepareRenderCache
  by_cases hw : w = 0
  · rw [if_pos hw]
  rw [if_neg hw]
  by_cases hh : h = 0
  · rw [if_pos hh]
  rw [if_neg hh]
  by_cases hp : ¬0 < ppp
  · rw [if_pos hp]
  rw [if_neg hp]
  obtain ⟨hrd, hsz⟩ : redraw = false ∧ st.cachedSize ≠ (w, h) := by
    rcases hbad with hb | hb | hb | hb
    · exact absurd hb hw
    · exact absurd hb hh
    · exact absurd hb hp
    · exact hb
  rw [if_pos (by simp [hrd, hsz])]

/-- Counterexample to C2 as stated: in `Direct` mode `render` performs
none of the validations — a 0×0 buffer with a negative
`pixels_per_point` still succeeds (`render_direct` has no asserts). -/
theorem render_direct_no_validation :
    renderModel FieldOrder.rgba (fun _ : Unit => Option.none) (fun _ _ => ())
      (fun _ (a : Unit) => a) (fun _ (b : Nat) => b) (fun _ _ _ b => b)
      Caching.direct ⟨(3, 3), [], (0, 0), (), []⟩ 0 0 0 false [()] [] [] (-1) =
      .ok (⟨0, 0, 0, 0⟩, ⟨(3, 3), [], (0, 0), (), []⟩, 0) := rfl

/-- **C2** (amended): in the three cached modes — but not in `Direct`,
which validates nothing — `render` panics when the buffer width or
height is zero, when `pixels_per_point ≤ 0`, or when
`full_redraw = false` and the buffer size differs from the renderer's
cached size. -/
theorem render_cached_validation {Prim P A Buf : Type} (fo : FieldOrder)
    (prep : Prim → Option PrepOut) (mk : Prim → PrepOut → P)
    (updAux : Cache P → A → A) (directDraw : Prim → Buf → Buf)
    (composite : Cache P → A → DirtyRect → Buf → Buf) (mode : Caching)
    (st : RenderState P A) (buffer : Buf) (w h : Nat) (redraw : Bool)
    (jobs : List Prim) (ds : List (TexId × ImageDelta)) (df : List TexId)
    (ppp : ℚ) (hmode : mode ≠ .direct)
    (hbad : w = 0 ∨ h = 0 ∨ ¬0 < ppp ∨
      (redraw = false ∧ st.cachedSize ≠ (w, h))) :
    renderModel fo prep mk updAux directDraw composite mode st buffer
      w h redraw jobs ds df ppp = .error () := by
  cases mode
  case direct => exact absurd rfl hmode
  all_goals (
    simp only [renderModel]
    rw [prepareRenderCache_bad fo prep mk updAux st w h redraw jobs ds df ppp hbad])

/-- Witness for C2 (amended) at a concrete input: `Mesh` mode with a
zero-width buffer. -/
theorem render_cached_validation_witness :
    renderModel FieldOrder.rgba (fun _ : Unit => Option.none) (fun _ _ => ())
      (fun _ (a : Unit) => a) (fun _ (b : Nat) => b) (fun _ _ _ b => b)
      Caching.mesh ⟨(3, 3), [], (0, 0), (), []⟩ 0 0 3 false [()] [] [] 1 =
      .error () :=
  render_cached_validation FieldOrder.rgba (fun _ : Unit => Option.none)
    (fun _ _ => ()) (fun _ (a : Unit) => a) (fun _ (b : Nat) => b)
    (fun _ _ _ b => b) Caching.mesh ⟨(3, 3), [], (0, 0), (), []⟩ 0 0 3 false
    [()] [] [] 1 (by decide) (Or.inl rfl)

/-- **C9**: on a 32-bit hash hit the frame reuses the stored entry: the
update produced is independent of the content constructor (the new
primitive's content is never built or compared), it is exactly a
`reuse` carrying the four meta fields, and applying it leaves every
entry's content unchanged, overwriting only the meta of the entry at
the hash — so two content-different primitives with equal hash alias
one cached rendering. -/
theorem cache_hit_aliases {Prim P : Type} (prep : Prim → Option PrepOut)
    (mk1 mk2 : Prim → PrepOut → P) (c : Cache P) (idx : Nat) (prim : Prim)
    (o : PrepOut) (ho : prep prim = some o) (hc : containsKey c o.hash = true) :
    primPrepareUpdate prep mk1 c idx prim =
        primPrepareUpdate prep mk2 c idx prim ∧
    primPrepareUpdate prep mk1 c idx prim =
        .reuse o.hash ⟨idx, o.rect, true, false⟩ ∧
    ∀ kv ∈ applyUpdate c (primPrepareUpdate prep mk1 c idx prim),
      ∃ kv0 ∈ c, kv.1 = kv0.1 ∧ kv.2.content = kv0.2.content ∧
        ((kv0.1 = o.hash ∧ kv.2.meta = ⟨idx, o.rect, true, false⟩) ∨
          (kv0.1 ≠ o.hash ∧ kv.2.meta = kv0.2.meta)) := by
  refine ⟨?_, primPrepareUpdate_hit prep mk1 c idx prim o ho hc, ?_⟩
  · rw [primPrepareUpdate_hit prep mk1 c idx prim o ho hc,
      primPrepareUpdate_hit prep mk2 c idx prim o ho hc]
  · intro kv hkv
    rw [primPrepareUpdate_hit prep mk1 c idx prim o ho hc] at hkv
    simp only [applyUpdate] at hkv
    rw [if_pos hc] at hkv
    exact mem_setMeta hkv

/-- Witness for C9: a cache holding content `42` under hash 5, hit by a
primitive whose two candidate content constructors differ (`7` vs `8`). -/
theorem cache_hit_aliases_witness :
    primPrepareUpdate (fun _ : Bool => some ⟨5, ⟨0, 0, 1, 1⟩, 1, 1⟩)
        (fun _ _ => 7) [(5, ⟨⟨9, ⟨0, 0, 2, 2⟩, false, false⟩, 42⟩)] 3 true =
      primPrepareUpdate (fun _ : Bool => some ⟨5, ⟨0, 0, 1, 1⟩, 1, 1⟩)
        (fun _ _ => 8) [(5, ⟨⟨9, ⟨0, 0, 2, 2⟩, false, false⟩, 42⟩)] 3 true ∧
    primPrepareUpdate (fun _ : Bool => some ⟨5, ⟨0, 0, 1, 1⟩, 1, 1⟩)
        (fun _ _ => 7) [(5, ⟨⟨9, ⟨0, 0, 2, 2⟩, false, false⟩, 42⟩)] 3 true =
      .reuse 5 ⟨3, ⟨0, 0, 1, 1⟩, true, false⟩ ∧
    ∀ kv ∈ applyUpdate ([(5, ⟨⟨9, ⟨0, 0, 2, 2⟩, false, false⟩, 42⟩)] : Cache Nat)
        (primPrepareUpdate (fun _ : Bool => some ⟨5, ⟨0, 0, 1, 1⟩, 1, 1⟩)
          (fun _ _ => 7) [(5, ⟨⟨9, ⟨0, 0, 2, 2⟩, false, false⟩, 42⟩)] 3 true),
      ∃ kv0 ∈ ([(5, ⟨⟨9, ⟨0, 0, 2, 2⟩, false, false⟩, 42⟩)] : Cache Nat),
        kv.1 = kv0.1 ∧ kv.2.content = kv0.2.content ∧
        ((kv0.1 = 5 ∧ kv.2.meta = ⟨3, ⟨0, 0, 1, 1⟩, true, false⟩) ∨
          (kv0.1 ≠ 5 ∧ kv.2.meta = kv0.2.meta)) :=
  cache_hit_aliases (fun _ : Bool => some ⟨5, ⟨0, 0, 1, 1⟩, 1, 1⟩)
    (fun _ _ => 7) (fun _ _ => 8) [(5, ⟨⟨9, ⟨0, 0, 2, 2⟩, false, false⟩, 42⟩)]
    3 true ⟨5, ⟨0, 0, 1, 1⟩, 1, 1⟩ rfl rfl

/-- **C10**: a `set` delta entry carrying a patch position whose
`TextureId` is absent from the store is silently skipped — no texture
is created or modified, no panic occurs, and the remaining entries of
the delta still apply (given the entry passes the source's unconditional
pixel-count assert, which runs before the lookup). -/
theorem set_textures_missing_id_skips (fo : FieldOrder) (ts : TexStore)
    (id : TexId) (d : ImageDelta) (rest : List (TexId × ImageDelta))
    (pos : Nat × Nat) (hpos : d.pos = some pos)
    (hwf : d.sizeX * d.sizeY = d.pixels.length)
    (hmiss : storeGet ts id = Option.none) :
    setTexturesM fo ts ((id, d) :: rest) = setTexturesM fo ts rest := by
  conv_lhs => unfold setTexturesM
  rw [if_neg (not_not.mpr hwf), hpos, hmiss]

/-- Witness for C10: patching a texture id absent from an empty store. -/
theorem set_textures_missing_id_skips_witness :
    setTexturesM FieldOrder.rgba []
        [(TexId.user 4, ⟨1, 1, [⟨1, 2, 3, 4⟩], some (0, 0)⟩)] =
      setTexturesM FieldOrder.rgba [] [] :=
  set_textures_missing_id_skips FieldOrder.rgba [] (TexId.user 4)
    ⟨1, 1, [⟨1, 2, 3, 4⟩], some (0, 0)⟩ [] (0, 0) rfl rfl rfl

/-- Witness for C1 at a concrete run: one primitive, 3×3 buffer. -/
theorem render_cached_idempotent_witness :
    ∃ st2, renderModel FieldOrder.rgba
      (fun _ : Unit => some ⟨7, ⟨0, 0, 1, 1⟩, 1, 1⟩)
      (fun _ _ => ()) (fun _ a => a) (fun _ b => b)
      (fun _ _ _ (b : Nat) => b + 1) Caching.mesh
      ⟨(3, 3), [], (1, 1), (), [(7, ⟨⟨0, ⟨0, 0, 1, 1⟩, true, true⟩, ()⟩)]⟩ 5
      3 3 false [()] [] [] 1 = .ok (DirtyRect.new_empty, st2, 5) :=
  render_cached_idempotent FieldOrder.rgba
    (fun _ : Unit => some ⟨7, ⟨0, 0, 1, 1⟩, 1, 1⟩)
    (fun _ _ => ()) (fun _ a => a) (fun _ b => b)
    (fun _ _ _ (b : Nat) => b + 1) Caching.mesh
    ⟨(3, 3), [], (0, 0), (), []⟩ 0 5 3 3 [()] [] [] 1
    ⟨0, 0, 1, 1⟩
    ⟨(3, 3), [], (1, 1), (), [(7, ⟨⟨0, ⟨0, 0, 1, 1⟩, true, true⟩, ()⟩)]⟩ 1
    (by decide) rfl

end ESB
